import Mathlib

/-!
# Enhanced-metrics scraper of rds_exporter: watermark reconciliation

A shallow embedding of `enhanced/scraper.go` (`newScraper`, `scrape`,
`betterTimes`) together with theorems about the per-instance timestamp
selection and the polling watermark `nextStartTime`.

Modelling conventions.

* `time.Time` values are instants, represented by the (unbounded) number of
  nanoseconds since the Unix epoch.  Go's zero `time.Time` (January 1, year 1,
  UTC) is the constant `zeroTime`.  `t.Before u` is `t < u`, `t.After u` is
  `u < t`.  All timestamps stored by `scrape` went through `.UTC()` and carry
  no monotonic reading, so equality of map keys is equality of instants.
* A Go `map[K]V` is an association list with pairwise distinct keys
  (`GoMap.WF`); the order of the list is the order in which a `range` loop
  happens to visit the entries.  Two maps are the same Go map when they agree
  on every lookup (`GoMap.Equiv`).
* `time.Now()` is an explicit argument `now`.
* The CloudWatch Logs service is an explicit argument: a function giving, for
  each call of `FilterLogEventsPagesWithContext`, the pages handed to the
  callback before the call returned (normally, with an error or because the
  context ended).  Logging is not modelled.
* A Go `panic` is the result `none`.
-/

namespace Enhanced

/-! ## Time -/

/-- Instants of `time.Time`: nanoseconds since the Unix epoch. -/
abbrev Time := Int

/-- Go's zero `time.Time`, January 1 of year 1, 00:00:00 UTC, which lies
62135596800 seconds before the Unix epoch. -/
def zeroTime : Time := -62135596800000000000

/-- Two's complement wrap-around of an integer into the range of `int64`. -/
def wrapInt64 (x : Int) : Int := (x + 2 ^ 63) % 2 ^ 64 - 2 ^ 63

/-- The SDK helper `aws.MillisecondsTimeValue`: `time.Unix(0, *v * 1000000)`
for a non-nil pointer (the product is an `int64` product), the zero time for a
nil pointer. -/
def MillisecondsTimeValue (v : Option Int) : Time :=
  match v with
  | some ms => wrapInt64 (ms * 1000000)
  | none => zeroTime

/-- The SDK helper `aws.TimeUnixMilli`: `t.UnixNano() / 1000000`, an `int64`
division truncating toward zero. -/
def TimeUnixMilli (t : Time) : Int := Int.tdiv (wrapInt64 t) 1000000

/-! ## Go maps -/

/-- A Go map as an association list; see `GoMap.WF`. -/
abbrev GoMap (κ : Type) (ν : Type) := List (κ × ν)

namespace GoMap

variable {κ ν : Type} [DecidableEq κ]

/-- The keys in iteration order. -/
def keys (m : GoMap κ ν) : List κ := m.map Prod.fst

/-- The keys of a Go map are pairwise distinct. -/
def WF (m : GoMap κ ν) : Prop := (keys m).Nodup

/-- Lookup `m[k]` with presence information. -/
def get? : GoMap κ ν → κ → Option ν
  | [], _ => none
  | (k', v) :: m, k => if k' = k then some v else get? m k

/-- Assignment `m[k] = v`: overwrite an existing entry, else add one. -/
def set : GoMap κ ν → κ → ν → GoMap κ ν
  | [], k, v => [(k, v)]
  | (k', v') :: m, k, v => if k' = k then (k, v) :: m else (k', v') :: set m k v

/-- Two association lists denote the same Go map. -/
def Equiv (m₁ m₂ : GoMap κ ν) : Prop := ∀ k, get? m₁ k = get? m₂ k

end GoMap

/-! ## betterTimes -/

/-- The inner loop of `betterTimes` over one instance's timestamps; the state
is the pair of the local `newest` and the result map `times`. -/
def newestLoop (resourceID : String) (events : List Time)
    (st : Time × GoMap String Time) : Time × GoMap String Time :=
  events.foldl
    (fun st timestamp =>
      if st.1 < timestamp then (timestamp, st.2.set resourceID timestamp) else st)
    st

/-- One iteration of the outer loop of `betterTimes`; the state is the pair
of `times` and `nextStartTime`. -/
def betterTimesStep (st : GoMap String Time × Time) (entry : String × List Time) :
    GoMap String Time × Time :=
  let r := newestLoop entry.1 entry.2 (zeroTime, st.1)
  (r.2, if r.1 < st.2 then r.1 else st.2)

/-- The function `betterTimes`: the selected timestamp for each instance and
the start time of the next request. -/
def betterTimes (now : Time) (allTimes : GoMap String (List Time)) :
    GoMap String Time × Time :=
  allTimes.foldl betterTimesStep ([], now)

/-! ## The scraper -/

set_option linter.dupNamespace false in
/-- Modelled from the spec: the type `sessions.Instance` of the package
`sessions`, which is not among the sources at hand.  The spec lists "a stable
resource identifier (used as the log-stream key), a display name, a region, a
set of output labels, and a flag disabling this feed"; the field names are
those `scraper.go` uses. -/
structure Instance where
  ResourceID : String
  Instance : String
  Region : String
  Labels : List (String × String)
  DisableEnhancedMetrics : Bool
  deriving DecidableEq

/-- The fields of `cloudwatchlogs.FilteredLogEvent`.  `Timestamp` and
`IngestionTime` are `*int64` (milliseconds since the Unix epoch) and are only
read through `aws.MillisecondsTimeValue`, which accepts nil; the other fields
are dereferenced by `scrape` and are taken to be present. -/
structure FilteredLogEvent where
  EventId : String
  LogStreamName : String
  Timestamp : Option Int
  IngestionTime : Option Int
  Message : String
  deriving DecidableEq

/-- The fields of `cloudwatchlogs.FilterLogEventsInput` that `scrape` sets. -/
structure FilterLogEventsInput where
  LogGroupName : String
  LogStreamNames : List String
  StartTime : Int
  deriving DecidableEq

/-- The state of a `scraper` (the service client and the logger are left
out). -/
structure scraper where
  instances : List Instance
  logStreamNames : List String
  nextStartTime : Time
  testDisallowUnknownFields : Bool
  deriving DecidableEq

/-- The log source seen from one poll: the pages that the call issued in the
loop iteration with index `i` hands to the callback. -/
abbrev LogSource := Nat → FilterLogEventsInput → List (List FilteredLogEvent)

/-- The function `newScraper`, with the clock reading as an argument. -/
def newScraper (now : Time) (instances : List Instance) : scraper :=
  { instances := instances
    logStreamNames := instances.foldl (fun names inst => names ++ [inst.ResourceID]) []
    nextStartTime := now - 3 * 60 * 1000000000
    testDisallowUnknownFields := false }

/-- The values taken by `i` in `for i := 0; i < streamCount; i += 100`,
starting from `i`, for at most `fuel` iterations. -/
def forIndices (streamCount : Nat) : Nat → Nat → List Nat
  | 0, _ => []
  | fuel + 1, i =>
    if i < streamCount then i :: forIndices streamCount fuel (i + 100) else []

/-- The request built in the loop iteration with index `i`. -/
def batchInput (s : scraper) (i : Nat) : FilterLogEventsInput :=
  let streamCount := s.logStreamNames.length
  let sliceStart := i
  let sliceEnd := if i + 100 > streamCount then streamCount else i + 100
  { LogGroupName := "RDSOSMetrics"
    LogStreamNames := (s.logStreamNames.take sliceEnd).drop sliceStart
    StartTime := TimeUnixMilli s.nextStartTime }

/-- The requests of a poll whose batching loop runs to its end, in order;
the requests a poll does issue are `issuedRequests`. -/
def batchInputs (s : scraper) : List FilterLogEventsInput :=
  (forIndices s.logStreamNames.length s.logStreamNames.length 0).map (batchInput s)

/-- The instance lookup at the head of the callback: the first instance whose
`ResourceID` is the event's stream name. -/
def findInstance (instances : List Instance) (logStreamName : String) : Option Instance :=
  instances.find? (fun i => decide (i.ResourceID = logStreamName))

/-- The timestamp under which an event is stored. -/
def eventTime (event : FilteredLogEvent) : Time := MillisecondsTimeValue event.Timestamp

/-- The assignment `m[resourceID][timestamp] = v`, creating the inner map
when `m[resourceID]` is nil. -/
def setNested {ν : Type} (m : GoMap String (GoMap Time ν)) (resourceID : String)
    (timestamp : Time) (v : ν) : GoMap String (GoMap Time ν) :=
  m.set resourceID (((m.get? resourceID).getD []).set timestamp v)

/-- The read `m[resourceID][timestamp]`, which gives the zero value `dflt`
when either key is missing. -/
def getNested {ν : Type} (m : GoMap String (GoMap Time ν)) (resourceID : String)
    (timestamp : Time) (dflt : ν) : ν :=
  (((m.get? resourceID).getD []).get? timestamp).getD dflt

section Scrape

variable {OSMetrics Metric : Type}
variable (parseOSMetrics : String → Bool → Except String OSMetrics)
variable (makePrometheusMetrics : OSMetrics → String → List (String × String) → List Metric)

/-- The accumulation maps `allMetrics` and `allMessages`. -/
structure Acc (Metric : Type) where
  allMetrics : GoMap String (GoMap Time (List Metric))
  allMessages : GoMap String (GoMap Time String)

/-- The body of the loop over `output.Events`: `some acc` when the event is
skipped, the updated maps when it is stored, `none` when the body panics. -/
def collectEvent (s : scraper) (acc : Acc Metric) (event : FilteredLogEvent) :
    Option (Acc Metric) :=
  match findInstance s.instances event.LogStreamName with
  | none => some acc
  | some inst =>
    if inst.DisableEnhancedMetrics then some acc
    else
      match parseOSMetrics event.Message s.testDisallowUnknownFields with
      | .error _ => if s.testDisallowUnknownFields then none else some acc
      | .ok osMetrics =>
        let timestamp := eventTime event
        some
          { allMetrics := setNested acc.allMetrics inst.ResourceID timestamp
              (makePrometheusMetrics osMetrics inst.Region inst.Labels)
            allMessages := setNested acc.allMessages inst.ResourceID timestamp event.Message }

/-- The callback `collectAllMetrics` on one page. -/
def collectAllMetrics (s : scraper) (acc : Acc Metric) (events : List FilteredLogEvent) :
    Option (Acc Metric) :=
  events.foldlM (collectEvent parseOSMetrics makePrometheusMetrics s) acc

/-- One iteration of the batching loop: the request is issued and the
callback runs on every page the source delivers. -/
def collectBatch (s : scraper) (source : LogSource) (acc : Acc Metric) (i : Nat) :
    Option (Acc Metric) :=
  (source i (batchInput s i)).foldlM (collectAllMetrics parseOSMetrics makePrometheusMetrics s) acc

/-- The whole batching loop, from empty accumulation maps. -/
def collectBatches (s : scraper) (source : LogSource) : Option (Acc Metric) :=
  (forIndices s.logStreamNames.length s.logStreamNames.length 0).foldlM
    (collectBatch parseOSMetrics makePrometheusMetrics s source) { allMetrics := [], allMessages := [] }

/-- The map `allTimes` built from `allMetrics`. -/
def allTimesOf (allMetrics : GoMap String (GoMap Time (List Metric))) :
    GoMap String (List Time) :=
  allMetrics.foldl
    (fun allTimes entry =>
      allTimes.set entry.1 (entry.2.foldl (fun ts e => ts ++ [e.1]) []))
    []

/-- The final loop of `scrape`, over the selection `times`. -/
def latestOnly (acc : Acc Metric) (times : GoMap String Time) :
    GoMap String (List Metric) × GoMap String String :=
  times.foldl
    (fun res entry =>
      (res.1.set entry.1 (getNested acc.allMetrics entry.1 entry.2 []),
       res.2.set entry.1 (getNested acc.allMessages entry.1 entry.2 "")))
    ([], [])

/-- The method `scrape`: the returned pair of maps and the scraper with its
new `nextStartTime`; `now` is the clock reading taken inside `betterTimes`. -/
def scrape (now : Time) (s : scraper) (source : LogSource) :
    Option ((GoMap String (List Metric) × GoMap String String) × scraper) :=
  match collectBatches parseOSMetrics makePrometheusMetrics s source with
  | none => none
  | some acc =>
    let allTimes := allTimesOf acc.allMetrics
    let r := betterTimes now allTimes
    some (latestOnly acc r.1, { s with nextStartTime := r.2 })

/-- The events handed to the callback during one poll, in processing order. -/
def pollEvents (s : scraper) (source : LogSource) : List FilteredLogEvent :=
  ((forIndices s.logStreamNames.length s.logStreamNames.length 0).map
    (fun i => (source i (batchInput s i)).flatten)).flatten

/-- An event is accepted when its stream name matches an instance, that
instance has enhanced metrics enabled and the message decodes; the result is
the instance and the decoded metrics. -/
def accepted (s : scraper) (event : FilteredLogEvent) : Option (Instance × OSMetrics) :=
  match findInstance s.instances event.LogStreamName with
  | none => none
  | some inst =>
    if inst.DisableEnhancedMetrics then none
    else
      match parseOSMetrics event.Message s.testDisallowUnknownFields with
      | .error _ => none
      | .ok osMetrics => some (inst, osMetrics)

end Scrape

/-! ## Sample data -/

/-- A decoder for examples: a message decodes to its length unless it starts
with `!`. -/
def sampleParse (msg : String) (_strict : Bool) : Except String Nat :=
  if msg.data.head? = some '!' then .error "bad" else .ok msg.length

/-- A sample maker for examples. -/
def sampleMetrics (m : Nat) (region : String) (_labels : List (String × String)) :
    List (String × Nat) :=
  [(region, m)]

/-- Two enabled instances and a disabled one. -/
def sampleInstances : List Instance :=
  [ { ResourceID := "A", Instance := "a", Region := "r1", Labels := [], DisableEnhancedMetrics := false },
    { ResourceID := "B", Instance := "b", Region := "r2", Labels := [], DisableEnhancedMetrics := false },
    { ResourceID := "C", Instance := "c", Region := "r3", Labels := [], DisableEnhancedMetrics := true } ]

/-- An event of stream `name` at `ms` milliseconds. -/
def sampleEvent (name : String) (ms : Int) (msg : String) : FilteredLogEvent :=
  { EventId := "e", LogStreamName := name, Timestamp := some ms, IngestionTime := some ms,
    Message := msg }

/-- A scraper for examples, with watermark at 10 ms. -/
def sampleScraper : scraper :=
  { instances := sampleInstances, logStreamNames := ["A", "B", "C"],
    nextStartTime := 10000000, testDisallowUnknownFields := false }

/-- The newest timestamp seen by the inner loop of `betterTimes` started at
`n`: the running maximum. -/
def newestFrom (n : Time) (events : List Time) : Time := events.foldl max n

/-- The value of `newest` after the inner loop of `betterTimes`. -/
def newestOf (events : List Time) : Time := newestFrom zeroTime events

/-- One association list is another with its entries visited in another
order and each timestamp list permuted. -/
def Reordered (m m' : GoMap String (List Time)) : Prop :=
  ∃ m₁, List.Perm m m₁ ∧ List.Forall₂ (fun a b => a.1 = b.1 ∧ List.Perm a.2 b.2) m₁ m'

/-- The read `m[resourceID][timestamp]` with presence information. -/
def lookupNested {ν : Type} (m : GoMap String (GoMap Time ν)) (resourceID : String)
    (timestamp : Time) : Option ν :=
  ((m.get? resourceID).getD []).get? timestamp

section Stored

variable {OSMetrics Metric : Type}
variable (parseOSMetrics : String → Bool → Except String OSMetrics)
variable (makePrometheusMetrics : OSMetrics → String → List (String × String) → List Metric)

/-- The two assignments made for an accepted event. -/
def storeEvent (acc : Acc Metric) (event : FilteredLogEvent) (inst : Instance)
    (osMetrics : OSMetrics) : Acc Metric :=
  { allMetrics := setNested acc.allMetrics inst.ResourceID (eventTime event)
      (makePrometheusMetrics osMetrics inst.Region inst.Labels)
    allMessages := setNested acc.allMessages inst.ResourceID (eventTime event) event.Message }

/-- The accumulation maps after a sequence of events none of which panics:
accepted events are stored, the others leave the maps as they are. -/
def storeAll (s : scraper) (acc : Acc Metric) (events : List FilteredLogEvent) : Acc Metric :=
  events.foldl
    (fun acc event =>
      match accepted parseOSMetrics s event with
      | some p => storeEvent makePrometheusMetrics acc event p.1 p.2
      | none => acc)
    acc

/-- The last accepted event of instance `resourceID` with timestamp
`timestamp` in a sequence that continues a sequence whose last such event was
`o`, together with its instance and decoded metrics. -/
def lastStoredFrom (s : scraper) (resourceID : String) (timestamp : Time)
    (o : Option (FilteredLogEvent × Instance × OSMetrics)) (events : List FilteredLogEvent) :
    Option (FilteredLogEvent × Instance × OSMetrics) :=
  events.foldl
    (fun o event =>
      match accepted parseOSMetrics s event with
      | some p =>
        if p.1.ResourceID = resourceID ∧ eventTime event = timestamp then some (event, p.1, p.2)
        else o
      | none => o)
    o

/-- The last accepted event of instance `resourceID` with timestamp
`timestamp`. -/
def lastStored (s : scraper) (resourceID : String) (timestamp : Time)
    (events : List FilteredLogEvent) : Option (FilteredLogEvent × Instance × OSMetrics) :=
  lastStoredFrom parseOSMetrics s resourceID timestamp none events

/-- The accumulation maps at the end of the batching loop of a poll that
does not panic. -/
def pollAcc (s : scraper) (source : LogSource) : Acc Metric :=
  storeAll parseOSMetrics makePrometheusMetrics s { allMetrics := [], allMessages := [] }
    (pollEvents s source)

/-- The pair returned by `betterTimes` inside a poll that does not panic. -/
def pollTimes (now : Time) (s : scraper) (source : LogSource) : GoMap String Time × Time :=
  betterTimes now (allTimesOf (pollAcc parseOSMetrics makePrometheusMetrics s source).allMetrics)

/-- The batching loop of `scrape` over the remaining values of `i`, with the
requests issued so far as part of the state: each iteration issues its
request and runs the callback on the pages delivered, and a panic in the
callback ends the loop. -/
def collectBatchesFrom (s : scraper) (source : LogSource) :
    List Nat → List FilterLogEventsInput → Acc Metric →
      List FilterLogEventsInput × Option (Acc Metric)
  | [], issued, acc => (issued, some acc)
  | i :: rest, issued, acc =>
    match collectBatch parseOSMetrics makePrometheusMetrics s source acc i with
    | none => (issued ++ [batchInput s i], none)
    | some acc' => collectBatchesFrom s source rest (issued ++ [batchInput s i]) acc'

/-- The requests issued by one poll, in issue order. -/
def issuedRequests (s : scraper) (source : LogSource) : List FilterLogEventsInput :=
  (collectBatchesFrom parseOSMetrics makePrometheusMetrics s source
    (forIndices s.logStreamNames.length s.logStreamNames.length 0) []
    { allMetrics := [], allMessages := [] }).1

end Stored

/-- A scraper for examples with 101 stream names, strict validation on and
the watermark at 15 ms and 500 ns. -/
def sampleLargeScraper : scraper :=
  { instances := sampleInstances, logStreamNames := List.replicate 101 "A",
    nextStartTime := 15000500, testDisallowUnknownFields := true }

/-- A log source for examples: the first request is answered with one
undecodable event of instance `A`, the others with nothing. -/
def samplePanicSource : LogSource :=
  fun i _ => if i = 0 then [[sampleEvent "A" 16 "!"]] else []

/-- The timestamp `t` is the maximum of the list `l`. -/
def IsMax (l : List Time) (t : Time) : Prop := t ∈ l ∧ ∀ u ∈ l, u ≤ t

/-- The time `t` is the minimum, over the instances of `allTimes` that
reported at least one event, of their maximum timestamps. -/
def IsMinOfMaxima (allTimes : GoMap String (List Time)) (t : Time) : Prop :=
  (∃ e ∈ allTimes, e.2 ≠ [] ∧ IsMax e.2 t) ∧
    ∀ e ∈ allTimes, e.2 ≠ [] → ∀ u, IsMax e.2 u → t ≤ u

/-! ## Lemmas on Go maps -/

namespace GoMap

variable {κ ν : Type} [DecidableEq κ]

theorem get?_set_self (m : GoMap κ ν) (k : κ) (v : ν) : get? (set m k v) k = some v := by
  induction m with
  | nil => simp [set, get?]
  | cons p m ih =>
    obtain ⟨k', v'⟩ := p
    by_cases h : k' = k
    · simp [set, get?, h]
    · simp [set, get?, h, ih]

theorem get?_set_of_ne (m : GoMap κ ν) {k k' : κ} (v : ν) (h : k ≠ k') :
    get? (set m k v) k' = get? m k' := by
  induction m with
  | nil => simp [set, get?, h]
  | cons p m ih =>
    obtain ⟨k₀, v₀⟩ := p
    by_cases h₀ : k₀ = k
    · subst h₀
      simp [set, get?, h]
    · simp [set, get?, h₀, ih]

theorem get?_set (m : GoMap κ ν) (k k' : κ) (v : ν) :
    get? (set m k v) k' = if k = k' then some v else get? m k' := by
  by_cases h : k = k'
  · subst h
    simp [get?_set_self]
  · simp [h, get?_set_of_ne]

theorem get?_eq_none_iff (m : GoMap κ ν) (k : κ) : get? m k = none ↔ k ∉ keys m := by
  induction m with
  | nil => simp [get?, keys]
  | cons p m ih =>
    obtain ⟨k', v'⟩ := p
    by_cases h : k' = k
    · simp [get?, keys, h]
    · have h' : ¬ k = k' := fun e => h e.symm
      simp [get?, h, h', ih, keys]

theorem mem_of_get?_eq_some {m : GoMap κ ν} {k : κ} {v : ν} (h : get? m k = some v) :
    (k, v) ∈ m := by
  induction m with
  | nil => simp [get?] at h
  | cons p m ih =>
    obtain ⟨k', v'⟩ := p
    by_cases hk : k' = k
    · simp [get?, hk] at h
      simp [hk, h]
    · simp [get?, hk] at h
      exact List.mem_cons_of_mem _ (ih h)

theorem get?_eq_some_of_mem {m : GoMap κ ν} (hm : WF m) {k : κ} {v : ν} (h : (k, v) ∈ m) :
    get? m k = some v := by
  induction m with
  | nil => simp at h
  | cons p m ih =>
    obtain ⟨k', v'⟩ := p
    have hnd : k' ∉ keys m ∧ (keys m).Nodup := by
      simpa [WF, keys] using hm
    rcases List.mem_cons.mp h with h | h
    · cases h
      simp [get?]
    · have hk : k ∈ keys m := List.mem_map.mpr ⟨(k, v), h, rfl⟩
      have hne : ¬ k' = k := fun e => hnd.1 (e ▸ hk)
      simp [get?, hne]
      exact ih hnd.2 h

theorem mem_keys_iff (m : GoMap κ ν) (k : κ) : k ∈ keys m ↔ ∃ v, get? m k = some v := by
  constructor
  · intro h
    cases hg : get? m k with
    | none => exact absurd h ((get?_eq_none_iff m k).mp hg)
    | some v => exact ⟨v, rfl⟩
  · rintro ⟨v, hv⟩
    exact List.mem_map.mpr ⟨(k, v), mem_of_get?_eq_some hv, rfl⟩

theorem keys_set (m : GoMap κ ν) (k : κ) (v : ν) :
    keys (set m k v) = if k ∈ keys m then keys m else keys m ++ [k] := by
  induction m with
  | nil => simp [set, keys]
  | cons p m ih =>
    obtain ⟨k', v'⟩ := p
    by_cases h : k' = k
    · subst h
      simp [set, keys]
    · have h' : ¬ k = k' := fun e => h e.symm
      have ih' := ih
      simp only [keys] at ih'
      by_cases hm : k ∈ List.map Prod.fst m
      · simp [set, keys, h, h', hm, ih']
      · simp [set, keys, h, h', hm, ih']

theorem WF_set {m : GoMap κ ν} (hm : WF m) (k : κ) (v : ν) : WF (set m k v) := by
  unfold WF at *
  rw [keys_set]
  by_cases h : k ∈ keys m
  · simpa [h] using hm
  · simp only [h, if_false]
    exact List.Nodup.append hm (List.nodup_singleton k) (by simpa using h)

theorem mem_keys_set (m : GoMap κ ν) (k k' : κ) (v : ν) :
    k' ∈ keys (set m k v) ↔ k' = k ∨ k' ∈ keys m := by
  rw [keys_set]
  by_cases h : k ∈ keys m
  · simp only [h, if_true]
    constructor
    · exact Or.inr
    · rintro (e | e)
      · exact e ▸ h
      · exact e
  · simp only [h, if_false, List.mem_append, List.mem_singleton]
    tauto

end GoMap

/-! ## Lemmas on the running maximum and minimum -/

theorem newestFrom_ge (n : Time) (events : List Time) : n ≤ newestFrom n events := by
  induction events generalizing n with
  | nil => simp [newestFrom]
  | cons t l ih =>
    have h := ih (max n t)
    simp only [newestFrom, List.foldl_cons] at h ⊢
    exact le_trans (le_max_left n t) h

theorem newestFrom_ge_of_mem (n : Time) (events : List Time) {t : Time} (h : t ∈ events) :
    t ≤ newestFrom n events := by
  induction events generalizing n with
  | nil => simp at h
  | cons u l ih =>
    rcases List.mem_cons.mp h with h | h
    · subst h
      have := newestFrom_ge (max n t) l
      simp only [newestFrom, List.foldl_cons] at this ⊢
      exact le_trans (le_max_right n t) this
    · have := ih (max n u) h
      simpa [newestFrom] using this

theorem newestFrom_eq_or_mem (n : Time) (events : List Time) :
    newestFrom n events = n ∨ newestFrom n events ∈ events := by
  induction events generalizing n with
  | nil => simp [newestFrom]
  | cons u l ih =>
    have h := ih (max n u)
    simp only [newestFrom, List.foldl_cons] at h ⊢
    rcases h with h | h
    · rcases max_choice n u with h' | h'
      · left; rw [h, h']
      · right; rw [h, h']; exact List.mem_cons_self _ _
    · right; exact List.mem_cons_of_mem _ h

theorem newestFrom_perm (n : Time) {l₁ l₂ : List Time} (h : List.Perm l₁ l₂) :
    newestFrom n l₁ = newestFrom n l₂ := by
  induction h generalizing n with
  | nil => rfl
  | cons x _ ih => simpa [newestFrom] using ih (max n x)
  | swap x y l =>
    simp only [newestFrom, List.foldl_cons]
    rw [max_assoc, max_comm y x, ← max_assoc]
  | trans _ _ ih₁ ih₂ => rw [ih₁, ih₂]

theorem newestOf_mem {events : List Time} (h : zeroTime < newestOf events) :
    newestOf events ∈ events := by
  rcases newestFrom_eq_or_mem zeroTime events with h' | h'
  · unfold newestOf at h
    rw [h'] at h
    exact absurd h (lt_irrefl _)
  · exact h'

theorem newestOf_pos_iff (events : List Time) :
    zeroTime < newestOf events ↔ ∃ t ∈ events, zeroTime < t := by
  constructor
  · intro h
    exact ⟨_, newestOf_mem h, h⟩
  · rintro ⟨t, ht, hpos⟩
    exact lt_of_lt_of_le hpos (newestFrom_ge_of_mem zeroTime events ht)

theorem foldl_min_le (b : Time) (l : List Time) : l.foldl min b ≤ b := by
  induction l generalizing b with
  | nil => simp
  | cons x l ih => exact le_trans (ih (min b x)) (min_le_left b x)

theorem foldl_min_le_of_mem (b : Time) (l : List Time) {x : Time} (h : x ∈ l) :
    l.foldl min b ≤ x := by
  induction l generalizing b with
  | nil => simp at h
  | cons y l ih =>
    rcases List.mem_cons.mp h with h | h
    · subst h
      exact le_trans (foldl_min_le (min b x) l) (min_le_right b x)
    · exact ih (min b y) h

theorem foldl_min_eq_or_mem (b : Time) (l : List Time) :
    l.foldl min b = b ∨ l.foldl min b ∈ l := by
  induction l generalizing b with
  | nil => simp
  | cons y l ih =>
    rcases ih (min b y) with h | h
    · rcases min_choice b y with h' | h'
      · left; simp only [List.foldl_cons]; rw [h, h']
      · right; simp only [List.foldl_cons]; rw [h, h']; exact List.mem_cons_self _ _
    · right; exact List.mem_cons_of_mem _ h

theorem foldl_min_perm (b : Time) {l₁ l₂ : List Time} (h : List.Perm l₁ l₂) :
    l₁.foldl min b = l₂.foldl min b := by
  induction h generalizing b with
  | nil => rfl
  | cons x _ ih => simpa using ih (min b x)
  | swap x y l =>
    simp only [List.foldl_cons]
    rw [min_assoc, min_comm y x, ← min_assoc]
  | trans _ _ ih₁ ih₂ => rw [ih₁, ih₂]

/-! ## Lemmas on betterTimes -/

theorem newestLoop_fst (resourceID : String) (events : List Time)
    (st : Time × GoMap String Time) :
    (newestLoop resourceID events st).1 = newestFrom st.1 events := by
  induction events generalizing st with
  | nil => rfl
  | cons t l ih =>
    simp only [newestLoop, newestFrom, List.foldl_cons] at ih ⊢
    by_cases h : st.1 < t
    · rw [if_pos h, ih, max_eq_right (le_of_lt h)]
    · rw [if_neg h, ih, max_eq_left (not_lt.mp h)]

theorem newestLoop_get?_of_ne (resourceID : String) (events : List Time)
    (st : Time × GoMap String Time) {k : String} (hk : resourceID ≠ k) :
    (newestLoop resourceID events st).2.get? k = st.2.get? k := by
  induction events generalizing st with
  | nil => rfl
  | cons t l ih =>
    simp only [newestLoop, List.foldl_cons] at ih ⊢
    by_cases h : st.1 < t
    · rw [if_pos h, ih, GoMap.get?_set_of_ne _ _ hk]
    · rw [if_neg h, ih]

theorem newestLoop_get?_self (resourceID : String) (events : List Time)
    (st : Time × GoMap String Time) :
    (newestLoop resourceID events st).2.get? resourceID =
      if st.1 < newestFrom st.1 events then some (newestFrom st.1 events)
      else st.2.get? resourceID := by
  induction events generalizing st with
  | nil => simp [newestLoop, newestFrom]
  | cons t l ih =>
    simp only [newestLoop, newestFrom, List.foldl_cons] at ih ⊢
    by_cases h : st.1 < t
    · rw [if_pos h, ih, max_eq_right (le_of_lt h)]
      have hge : t ≤ List.foldl max t l := newestFrom_ge t l
      by_cases h' : t < List.foldl max t l
      · simp [h', lt_trans h h']
      · have he : List.foldl max t l = t := le_antisymm (not_lt.mp h') hge
        simp [he, h, GoMap.get?_set_self]
    · rw [if_neg h, ih, max_eq_left (not_lt.mp h)]

theorem newestLoop_WF (resourceID : String) (events : List Time)
    (st : Time × GoMap String Time) (h : GoMap.WF st.2) :
    GoMap.WF (newestLoop resourceID events st).2 := by
  induction events generalizing st with
  | nil => exact h
  | cons t l ih =>
    simp only [newestLoop, List.foldl_cons] at ih ⊢
    by_cases h' : st.1 < t
    · rw [if_pos h']
      exact ih _ (GoMap.WF_set h _ _)
    · rw [if_neg h']
      exact ih _ h

theorem betterTimesStep_get? (st : GoMap String Time × Time) (entry : String × List Time)
    (k : String) :
    (betterTimesStep st entry).1.get? k =
      if entry.1 = k ∧ zeroTime < newestOf entry.2 then some (newestOf entry.2)
      else st.1.get? k := by
  unfold betterTimesStep
  by_cases hk : entry.1 = k
  · subst hk
    simp only [newestLoop_get?_self, newestOf, true_and]
  · simp only [newestLoop_get?_of_ne _ _ _ hk, hk, false_and, if_false]

theorem betterTimesStep_snd (st : GoMap String Time × Time) (entry : String × List Time) :
    (betterTimesStep st entry).2 = min st.2 (newestOf entry.2) := by
  unfold betterTimesStep
  simp only [newestLoop_fst, newestOf]
  by_cases h : newestFrom zeroTime entry.2 < st.2
  · rw [if_pos h, min_eq_right (le_of_lt h)]
  · rw [if_neg h, min_eq_left (not_lt.mp h)]

theorem betterTimesStep_WF (st : GoMap String Time × Time) (entry : String × List Time)
    (h : GoMap.WF st.1) : GoMap.WF (betterTimesStep st entry).1 :=
  newestLoop_WF _ _ _ h

theorem foldl_betterTimesStep_snd (l : GoMap String (List Time))
    (st : GoMap String Time × Time) :
    (l.foldl betterTimesStep st).2 = (l.map (fun e => newestOf e.2)).foldl min st.2 := by
  induction l generalizing st with
  | nil => rfl
  | cons e l ih =>
    simp only [List.foldl_cons, List.map_cons]
    rw [ih, betterTimesStep_snd]

theorem foldl_betterTimesStep_WF (l : GoMap String (List Time))
    (st : GoMap String Time × Time) (h : GoMap.WF st.1) :
    GoMap.WF (l.foldl betterTimesStep st).1 := by
  induction l generalizing st with
  | nil => exact h
  | cons e l ih => exact ih _ (betterTimesStep_WF st e h)

theorem foldl_betterTimesStep_get? (l : GoMap String (List Time)) (hl : GoMap.WF l)
    (st : GoMap String Time × Time) (k : String) :
    (l.foldl betterTimesStep st).1.get? k =
      match GoMap.get? l k with
      | some events => if zeroTime < newestOf events then some (newestOf events) else st.1.get? k
      | none => st.1.get? k := by
  induction l generalizing st with
  | nil => rfl
  | cons e l ih =>
    obtain ⟨rid, ev⟩ := e
    have hnd : rid ∉ GoMap.keys l ∧ (GoMap.keys l).Nodup := by
      simpa [GoMap.WF, GoMap.keys] using hl
    simp only [List.foldl_cons]
    rw [ih hnd.2, betterTimesStep_get?]
    by_cases hk : rid = k
    · subst hk
      have hnone : GoMap.get? l rid = none := (GoMap.get?_eq_none_iff l rid).mpr hnd.1
      simp [hnone, GoMap.get?]
    · simp only [GoMap.get?, hk, if_false, false_and]

/-- The selection of `betterTimes` on a Go map: an instance is selected when
some timestamp of its list is after the zero time, and then with the newest
one. -/
theorem betterTimes_get? (now : Time) (allTimes : GoMap String (List Time))
    (h : GoMap.WF allTimes) (k : String) :
    (betterTimes now allTimes).1.get? k =
      match GoMap.get? allTimes k with
      | some events => if zeroTime < newestOf events then some (newestOf events) else none
      | none => none := by
  unfold betterTimes
  rw [foldl_betterTimesStep_get? allTimes h]
  rfl

theorem betterTimes_snd (now : Time) (allTimes : GoMap String (List Time)) :
    (betterTimes now allTimes).2 = (allTimes.map (fun e => newestOf e.2)).foldl min now :=
  foldl_betterTimesStep_snd allTimes _

theorem betterTimes_WF (now : Time) (allTimes : GoMap String (List Time)) :
    GoMap.WF (betterTimes now allTimes).1 :=
  foldl_betterTimesStep_WF allTimes _ (by simp [GoMap.WF, GoMap.keys])

/-- The watermark is not after any selected timestamp, for association lists
with or without repeated keys. -/
theorem foldl_betterTimesStep_le (l : GoMap String (List Time))
    (st : GoMap String Time × Time)
    (h : ∀ k t, st.1.get? k = some t → st.2 ≤ t) :
    ∀ k t, (l.foldl betterTimesStep st).1.get? k = some t →
      (l.foldl betterTimesStep st).2 ≤ t := by
  induction l generalizing st with
  | nil => exact h
  | cons e l ih =>
    simp only [List.foldl_cons]
    apply ih
    intro k t hk
    rw [betterTimesStep_get?] at hk
    rw [betterTimesStep_snd]
    by_cases hc : e.1 = k ∧ zeroTime < newestOf e.2
    · rw [if_pos hc] at hk
      cases hk
      exact min_le_right _ _
    · rw [if_neg hc] at hk
      exact le_trans (min_le_left _ _) (h k t hk)

theorem GoMap.WF_perm {κ ν : Type} [DecidableEq κ] {m m' : GoMap κ ν} (h : List.Perm m m')
    (hm : GoMap.WF m) : GoMap.WF m' :=
  (List.Perm.nodup_iff (List.Perm.map Prod.fst h)).mp hm

theorem GoMap.get?_perm {κ ν : Type} [DecidableEq κ] {m m' : GoMap κ ν} (h : List.Perm m m')
    (hm : GoMap.WF m) (k : κ) : GoMap.get? m k = GoMap.get? m' k := by
  have hm' : GoMap.WF m' := GoMap.WF_perm h hm
  cases hg : GoMap.get? m k with
  | none =>
    have hk : k ∉ GoMap.keys m := (GoMap.get?_eq_none_iff m k).mp hg
    have hk' : k ∉ GoMap.keys m' := fun hc =>
      hk ((List.Perm.mem_iff (List.Perm.map Prod.fst h)).mpr hc)
    exact ((GoMap.get?_eq_none_iff m' k).mpr hk').symm
  | some v =>
    have hmem : (k, v) ∈ m' := (List.Perm.mem_iff h).mp (GoMap.mem_of_get?_eq_some hg)
    exact (GoMap.get?_eq_some_of_mem hm' hmem).symm

theorem forall₂_keys {m m' : GoMap String (List Time)}
    (h : List.Forall₂ (fun a b => a.1 = b.1 ∧ List.Perm a.2 b.2) m m') :
    GoMap.keys m = GoMap.keys m' := by
  induction h with
  | nil => rfl
  | cons hab _ ih =>
    simp only [GoMap.keys, List.map_cons] at ih ⊢
    rw [hab.1, ih]

theorem forall₂_newest {m m' : GoMap String (List Time)}
    (h : List.Forall₂ (fun a b => a.1 = b.1 ∧ List.Perm a.2 b.2) m m') :
    m.map (fun e => newestOf e.2) = m'.map (fun e => newestOf e.2) := by
  induction h with
  | nil => rfl
  | cons hab _ ih =>
    simp only [List.map_cons]
    rw [ih]
    simp only [newestOf, newestFrom_perm zeroTime hab.2]

theorem forall₂_selection {m m' : GoMap String (List Time)}
    (h : List.Forall₂ (fun a b => a.1 = b.1 ∧ List.Perm a.2 b.2) m m') (k : String) :
    (match GoMap.get? m k with
      | some events => if zeroTime < newestOf events then some (newestOf events) else none
      | none => none) =
    (match GoMap.get? m' k with
      | some events => if zeroTime < newestOf events then some (newestOf events) else none
      | none => none) := by
  induction h with
  | nil => rfl
  | @cons a b l l' hab _ ih =>
    obtain ⟨ka, va⟩ := a
    obtain ⟨kb, vb⟩ := b
    obtain ⟨hk, hp⟩ := hab
    simp only at hk hp
    subst hk
    by_cases hkk : ka = k
    · simp only [GoMap.get?, hkk, if_true, newestOf, newestFrom_perm zeroTime hp]
    · simpa only [GoMap.get?, hkk, if_false] using ih

/-- The selection and the watermark of `betterTimes` are those of any
reordering of its argument. -/
theorem betterTimes_reordered (now : Time) {m m' : GoMap String (List Time)}
    (hwf : GoMap.WF m) (hr : Reordered m m') :
    GoMap.Equiv (betterTimes now m').1 (betterTimes now m).1 ∧
      (betterTimes now m').2 = (betterTimes now m).2 := by
  obtain ⟨m₁, hperm, hf⟩ := hr
  have hwf₁ : GoMap.WF m₁ := GoMap.WF_perm hperm hwf
  have hwf' : GoMap.WF m' := by
    unfold GoMap.WF at hwf₁ ⊢
    rw [← forall₂_keys hf]
    exact hwf₁
  constructor
  · intro k
    rw [betterTimes_get? now m' hwf', betterTimes_get? now m hwf, GoMap.get?_perm hperm hwf k]
    exact (forall₂_selection hf k).symm
  · rw [betterTimes_snd, betterTimes_snd, ← forall₂_newest hf]
    exact (foldl_min_perm now (List.Perm.map _ hperm)).symm

/-! ## Theorems on betterTimes -/

/-- C1: for every Go map passed to `betterTimes` and every instance of it
whose timestamp list is non-empty and holds only timestamps strictly later
than Go's zero time, the selection has an entry for that instance, and the
selected timestamp is an element of the list and is greater than or equal to
every element of the list. -/
theorem betterTimes_selects_maximum (now : Time) (allTimes : GoMap String (List Time))
    (hwf : GoMap.WF allTimes) (resourceID : String) (events : List Time)
    (hmem : (resourceID, events) ∈ allTimes) (hne : events ≠ [])
    (hpos : ∀ t ∈ events, zeroTime < t) :
    ∃ t, (betterTimes now allTimes).1.get? resourceID = some t ∧ t ∈ events ∧
      ∀ u ∈ events, u ≤ t := by
  obtain ⟨t₀, ht₀⟩ := List.exists_mem_of_ne_nil events hne
  have hnew : zeroTime < newestOf events :=
    (newestOf_pos_iff events).mpr ⟨t₀, ht₀, hpos t₀ ht₀⟩
  refine ⟨newestOf events, ?_, newestOf_mem hnew, fun u hu => newestFrom_ge_of_mem _ _ hu⟩
  rw [betterTimes_get? now allTimes hwf, GoMap.get?_eq_some_of_mem hwf hmem]
  simp [hnew]

/-- Witness of C1: instance `A` with timestamps 10, 30, 20 next to instance
`B`. -/
theorem betterTimes_selects_maximum_witness :
    ∃ t, (betterTimes 100 [("A", [10, 30, 20]), ("B", [12])]).1.get? "A" = some t ∧
      t ∈ [(10 : Time), 30, 20] ∧ ∀ u ∈ [(10 : Time), 30, 20], u ≤ t :=
  betterTimes_selects_maximum 100 [("A", [10, 30, 20]), ("B", [12])]
    (by simp [GoMap.WF, GoMap.keys]) "A" [10, 30, 20] (by simp) (by simp) (by decide)


theorem IsMax_newestOf {events : List Time} (h : ∃ t ∈ events, zeroTime < t) :
    IsMax events (newestOf events) :=
  ⟨newestOf_mem ((newestOf_pos_iff events).mpr h), fun _ hu => newestFrom_ge_of_mem _ _ hu⟩

theorem IsMax_unique {l : List Time} {t u : Time} (ht : IsMax l t) (hu : IsMax l u) : t = u :=
  le_antisymm (hu.2 t ht.1) (ht.2 u hu.1)

/-- Counterexample to C3 as stated: instance `A` reported one event at 5 and
instance `B` is in the map with an empty list; the minimum over the instances
that reported an event is 5, but the returned watermark is the zero time,
which is not that minimum. -/
theorem betterTimes_watermark_not_minimum :
    IsMinOfMaxima [("A", [5]), ("B", [])] 5 ∧
      (betterTimes 100 [("A", [5]), ("B", [])]).2 = zeroTime ∧
      ¬ IsMinOfMaxima [("A", [5]), ("B", [])] (betterTimes 100 [("A", [5]), ("B", [])]).2 := by
  have hv : (betterTimes 100 [("A", [5]), ("B", [])]).2 = zeroTime := by decide
  refine ⟨?_, hv, ?_⟩
  · simp [IsMinOfMaxima, IsMax]
  · rw [hv]
    rintro ⟨⟨e, he, _, hmax⟩, _⟩
    simp only [List.mem_cons, List.mem_singleton, List.not_mem_nil, or_false] at he
    rcases he with rfl | rfl
    · have h5 := hmax.1
      simp [zeroTime] at h5
    · have h5 := hmax.1
      simp at h5

/-- C3, amended: for every map passed to `betterTimes` in which every
instance has at least one timestamp strictly later than Go's zero time, and
for every clock reading that is not earlier than all timestamps of some
instance, the returned next watermark is the minimum over the instances of
their maximum timestamps. -/
theorem betterTimes_watermark_minimum (now : Time) (allTimes : GoMap String (List Time))
    (hpos : ∀ e ∈ allTimes, ∃ t ∈ e.2, zeroTime < t)
    (hclock : ∃ e ∈ allTimes, ∀ t ∈ e.2, t ≤ now) :
    IsMinOfMaxima allTimes (betterTimes now allTimes).2 := by
  rw [betterTimes_snd]
  obtain ⟨e₀, he₀, hle₀⟩ := hclock
  have hmax₀ := IsMax_newestOf (hpos e₀ he₀)
  have hmem₀ : newestOf e₀.2 ∈ allTimes.map (fun e => newestOf e.2) :=
    List.mem_map.mpr ⟨e₀, he₀, rfl⟩
  have hF₀ := foldl_min_le_of_mem now _ hmem₀
  constructor
  · rcases foldl_min_eq_or_mem now (allTimes.map (fun e => newestOf e.2)) with h | h
    · refine ⟨e₀, he₀, List.ne_nil_of_mem hmax₀.1, ?_⟩
      have : List.foldl min now (allTimes.map (fun e => newestOf e.2)) = newestOf e₀.2 :=
        le_antisymm hF₀ (le_of_le_of_eq (hle₀ _ hmax₀.1) h.symm)
      rw [this]
      exact hmax₀
    · obtain ⟨e, he, heq⟩ := List.mem_map.mp h
      have hmax := IsMax_newestOf (hpos e he)
      refine ⟨e, he, List.ne_nil_of_mem hmax.1, ?_⟩
      rw [← heq]
      exact hmax
  · intro e he _ u hu
    have hmax := IsMax_newestOf (hpos e he)
    rw [IsMax_unique hu hmax]
    exact foldl_min_le_of_mem now _ (List.mem_map.mpr ⟨e, he, rfl⟩)

/-- Witness of the amended C3: the first poll of the spec's example. -/
theorem betterTimes_watermark_minimum_witness :
    IsMinOfMaxima [("A", [10]), ("B", [12])] (betterTimes 100 [("A", [10]), ("B", [12])]).2 :=
  betterTimes_watermark_minimum 100 [("A", [10]), ("B", [12])]
    (by decide) (by decide)


/-! ## Lemmas on loops that fill a map -/

theorem GoMap.foldl_set_get? {κ α β : Type} [DecidableEq κ] (f : κ → α → β)
    (l : GoMap κ α) (hl : GoMap.WF l) (m₀ : GoMap κ β) (k : κ) :
    GoMap.get? (l.foldl (fun m e => GoMap.set m e.1 (f e.1 e.2)) m₀) k =
      match GoMap.get? l k with
      | some a => some (f k a)
      | none => GoMap.get? m₀ k := by
  induction l generalizing m₀ with
  | nil => rfl
  | cons e l ih =>
    obtain ⟨k', a⟩ := e
    have hnd : k' ∉ GoMap.keys l ∧ (GoMap.keys l).Nodup := by
      simpa [GoMap.WF, GoMap.keys] using hl
    simp only [List.foldl_cons]
    rw [ih hnd.2]
    by_cases hk : k' = k
    · subst hk
      have hnone : GoMap.get? l k' = none := (GoMap.get?_eq_none_iff l k').mpr hnd.1
      simp [hnone, GoMap.get?, GoMap.get?_set_self]
    · simp only [GoMap.get?, hk, if_false, GoMap.get?_set_of_ne _ _ hk]

theorem GoMap.foldl_set_WF {κ α β : Type} [DecidableEq κ] (f : κ → α → β)
    (l : GoMap κ α) (m₀ : GoMap κ β) (h : GoMap.WF m₀) :
    GoMap.WF (l.foldl (fun m e => GoMap.set m e.1 (f e.1 e.2)) m₀) := by
  induction l generalizing m₀ with
  | nil => exact h
  | cons e l ih => exact ih _ (GoMap.WF_set h _ _)

theorem GoMap.WF_nil {κ ν : Type} [DecidableEq κ] : GoMap.WF ([] : GoMap κ ν) := by
  simp [GoMap.WF, GoMap.keys]

theorem foldl_append_keys {ν : Type} (m : GoMap Time ν) (ts : List Time) :
    m.foldl (fun ts e => ts ++ [e.1]) ts = ts ++ GoMap.keys m := by
  induction m generalizing ts with
  | nil => simp [GoMap.keys]
  | cons e m ih =>
    simp only [List.foldl_cons, GoMap.keys, List.map_cons] at ih ⊢
    rw [ih]
    simp

theorem allTimesOf_get? {Metric : Type} (allMetrics : GoMap String (GoMap Time (List Metric)))
    (h : GoMap.WF allMetrics) (k : String) :
    GoMap.get? (allTimesOf allMetrics) k = (GoMap.get? allMetrics k).map GoMap.keys := by
  unfold allTimesOf
  have := GoMap.foldl_set_get? (fun (_ : String) (inner : GoMap Time (List Metric)) =>
    inner.foldl (fun ts e => ts ++ [e.1]) []) allMetrics h [] k
  rw [this]
  cases GoMap.get? allMetrics k with
  | none => rfl
  | some inner => simp [foldl_append_keys]

theorem allTimesOf_WF {Metric : Type} (allMetrics : GoMap String (GoMap Time (List Metric))) :
    GoMap.WF (allTimesOf allMetrics) := by
  unfold allTimesOf
  exact GoMap.foldl_set_WF (fun (_ : String) (inner : GoMap Time (List Metric)) =>
    inner.foldl (fun (ts : List Time) e => ts ++ [e.1]) []) allMetrics [] GoMap.WF_nil

theorem latestOnly_fst {Metric : Type} (acc : Acc Metric) (times : GoMap String Time) :
    (latestOnly acc times).1 =
      times.foldl (fun m e => GoMap.set m e.1 (getNested acc.allMetrics e.1 e.2 [])) [] := by
  unfold latestOnly
  generalize ([] : GoMap String (List Metric)) = a
  generalize ([] : GoMap String String) = b
  induction times generalizing a b with
  | nil => rfl
  | cons e l ih => simp only [List.foldl_cons]; exact ih _ _

theorem latestOnly_snd {Metric : Type} (acc : Acc Metric) (times : GoMap String Time) :
    (latestOnly acc times).2 =
      times.foldl (fun m e => GoMap.set m e.1 (getNested acc.allMessages e.1 e.2 "")) [] := by
  unfold latestOnly
  generalize ([] : GoMap String (List Metric)) = a
  generalize ([] : GoMap String String) = b
  induction times generalizing a b with
  | nil => rfl
  | cons e l ih => simp only [List.foldl_cons]; exact ih _ _

theorem latestOnly_fst_get? {Metric : Type} (acc : Acc Metric) (times : GoMap String Time)
    (h : GoMap.WF times) (k : String) :
    GoMap.get? (latestOnly acc times).1 k =
      (GoMap.get? times k).map (fun t => getNested acc.allMetrics k t []) := by
  rw [latestOnly_fst, GoMap.foldl_set_get? (fun k t => getNested acc.allMetrics k t []) times h]
  cases GoMap.get? times k <;> rfl

theorem latestOnly_snd_get? {Metric : Type} (acc : Acc Metric) (times : GoMap String Time)
    (h : GoMap.WF times) (k : String) :
    GoMap.get? (latestOnly acc times).2 k =
      (GoMap.get? times k).map (fun t => getNested acc.allMessages k t "") := by
  rw [latestOnly_snd, GoMap.foldl_set_get? (fun k t => getNested acc.allMessages k t "") times h]
  cases GoMap.get? times k <;> rfl

theorem foldl_set_keys {α β : Type} (f : String → α → β) (l : GoMap String α)
    (m₀ : GoMap String β) (k : String) :
    k ∈ GoMap.keys (l.foldl (fun m e => GoMap.set m e.1 (f e.1 e.2)) m₀) ↔
      k ∈ GoMap.keys m₀ ∨ k ∈ GoMap.keys l := by
  induction l generalizing m₀ with
  | nil => simp [GoMap.keys]
  | cons e l ih =>
    simp only [List.foldl_cons]
    rw [ih, GoMap.mem_keys_set]
    simp only [GoMap.keys, List.map_cons, List.mem_cons]
    tauto

theorem lookupNested_setNested {ν : Type} (m : GoMap String (GoMap Time ν)) (rid : String)
    (ts : Time) (v : ν) (rid' : String) (ts' : Time) :
    lookupNested (setNested m rid ts v) rid' ts' =
      if rid = rid' ∧ ts = ts' then some v else lookupNested m rid' ts' := by
  unfold lookupNested setNested
  by_cases hr : rid = rid'
  · subst hr
    rw [GoMap.get?_set_self]
    simp only [Option.getD_some, true_and]
    rw [GoMap.get?_set]
  · rw [GoMap.get?_set_of_ne _ _ hr]
    simp [hr]

theorem getNested_eq {ν : Type} (m : GoMap String (GoMap Time ν)) (rid : String) (ts : Time)
    (dflt : ν) : getNested m rid ts dflt = (lookupNested m rid ts).getD dflt := rfl

theorem setNested_WF {ν : Type} (m : GoMap String (GoMap Time ν)) (h : GoMap.WF m)
    (rid : String) (ts : Time) (v : ν) : GoMap.WF (setNested m rid ts v) :=
  GoMap.WF_set h _ _


/-! ## Lemmas on the accumulation loop -/

theorem foldlM_flatten {α β : Type} (f : β → α → Option β) (L : List (List α)) (b : β) :
    L.foldlM (fun b l => l.foldlM f b) b = L.flatten.foldlM f b := by
  induction L generalizing b with
  | nil => rfl
  | cons l L ih =>
    rw [List.foldlM_cons, List.flatten_cons, List.foldlM_append]
    cases h : l.foldlM f b with
    | none => rfl
    | some b' => exact ih b'

theorem foldlM_map_flatten {α β ι : Type} (f : β → α → Option β) (g : ι → List α)
    (is : List ι) (b : β) :
    is.foldlM (fun b i => (g i).foldlM f b) b = (is.map g).flatten.foldlM f b := by
  induction is generalizing b with
  | nil => rfl
  | cons i is ih =>
    rw [List.foldlM_cons, List.map_cons, List.flatten_cons, List.foldlM_append]
    cases h : (g i).foldlM f b with
    | none => rfl
    | some b' => exact ih b'

section ScrapeLemmas

variable {OSMetrics Metric : Type}
variable (parseOSMetrics : String → Bool → Except String OSMetrics)
variable (makePrometheusMetrics : OSMetrics → String → List (String × String) → List Metric)

theorem findInstance_resourceID {instances : List Instance} {name : String} {inst : Instance}
    (h : findInstance instances name = some inst) : inst.ResourceID = name := by
  have := List.find?_some h
  simpa using this

theorem accepted_resourceID {s : scraper} {event : FilteredLogEvent}
    {p : Instance × OSMetrics} (h : accepted parseOSMetrics s event = some p) :
    p.1.ResourceID = event.LogStreamName := by
  unfold accepted at h
  cases hf : findInstance s.instances event.LogStreamName with
  | none => simp [hf] at h
  | some inst =>
    simp only [hf] at h
    by_cases hd : inst.DisableEnhancedMetrics = true
    · simp [hd] at h
    · simp only [hd] at h
      cases hp : parseOSMetrics event.Message s.testDisallowUnknownFields with
      | error err => simp [hp] at h
      | ok om =>
        simp [hp] at h
        rw [← h]
        exact findInstance_resourceID hf

theorem collectEvent_eq (s : scraper) (acc : Acc Metric) (event : FilteredLogEvent) :
    collectEvent parseOSMetrics makePrometheusMetrics s acc event =
      match accepted parseOSMetrics s event with
      | some p => some (storeEvent makePrometheusMetrics acc event p.1 p.2)
      | none =>
        match findInstance s.instances event.LogStreamName with
        | none => some acc
        | some inst =>
          if inst.DisableEnhancedMetrics then some acc
          else if s.testDisallowUnknownFields then none else some acc := by
  unfold collectEvent accepted
  cases hf : findInstance s.instances event.LogStreamName with
  | none => rfl
  | some inst =>
    by_cases hd : inst.DisableEnhancedMetrics = true
    · simp [hd]
    · simp only [hd, if_false]
      cases hp : parseOSMetrics event.Message s.testDisallowUnknownFields with
      | error err => simp
      | ok om => simp [storeEvent]

theorem collectEvent_of_accepted (s : scraper) (acc : Acc Metric) (event : FilteredLogEvent)
    {p : Instance × OSMetrics} (h : accepted parseOSMetrics s event = some p) :
    collectEvent parseOSMetrics makePrometheusMetrics s acc event =
      some (storeEvent makePrometheusMetrics acc event p.1 p.2) := by
  rw [collectEvent_eq, h]

theorem collectEvent_of_not_accepted (s : scraper) (acc : Acc Metric)
    (event : FilteredLogEvent) (h : accepted parseOSMetrics s event = none)
    (hs : s.testDisallowUnknownFields = false) :
    collectEvent parseOSMetrics makePrometheusMetrics s acc event = some acc := by
  rw [collectEvent_eq, h]
  cases findInstance s.instances event.LogStreamName with
  | none => rfl
  | some inst => simp [hs]

theorem collectEvent_eq_some {s : scraper} {acc acc' : Acc Metric} {event : FilteredLogEvent}
    (h : collectEvent parseOSMetrics makePrometheusMetrics s acc event = some acc') :
    acc' = storeAll parseOSMetrics makePrometheusMetrics s acc [event] := by
  rw [collectEvent_eq] at h
  simp only [storeAll, List.foldl_cons, List.foldl_nil]
  cases ha : accepted parseOSMetrics s event with
  | some p =>
    simp only [ha, Option.some.injEq] at h
    exact h.symm
  | none =>
    simp only [ha] at h
    show acc' = acc
    cases hf : findInstance s.instances event.LogStreamName with
    | none =>
      simp only [hf, Option.some.injEq] at h
      exact h.symm
    | some inst =>
      simp only [hf] at h
      by_cases hd : inst.DisableEnhancedMetrics = true
      · simp only [hd, if_true, Option.some.injEq] at h
        exact h.symm
      · by_cases hs : s.testDisallowUnknownFields = true
        · simp [hd, hs] at h
        · simp [hd, hs] at h
          exact h.symm

theorem collect_events_eq_some (s : scraper) (events : List FilteredLogEvent)
    (acc acc' : Acc Metric)
    (h : events.foldlM (collectEvent parseOSMetrics makePrometheusMetrics s) acc = some acc') :
    acc' = storeAll parseOSMetrics makePrometheusMetrics s acc events := by
  induction events generalizing acc with
  | nil =>
    simp only [List.foldlM_nil] at h
    cases h
    rfl
  | cons e l ih =>
    rw [List.foldlM_cons] at h
    cases he : collectEvent parseOSMetrics makePrometheusMetrics s acc e with
    | none => simp [he] at h
    | some acc₁ =>
      simp only [he] at h
      have h₁ := collectEvent_eq_some parseOSMetrics makePrometheusMetrics he
      have h₂ := ih acc₁ h
      rw [h₂, h₁]
      rfl

theorem collect_events_of_strict_off (s : scraper) (hs : s.testDisallowUnknownFields = false)
    (events : List FilteredLogEvent) (acc : Acc Metric) :
    events.foldlM (collectEvent parseOSMetrics makePrometheusMetrics s) acc =
      some (storeAll parseOSMetrics makePrometheusMetrics s acc events) := by
  induction events generalizing acc with
  | nil => rfl
  | cons e l ih =>
    rw [List.foldlM_cons]
    cases ha : accepted parseOSMetrics s e with
    | some p =>
      rw [collectEvent_of_accepted parseOSMetrics makePrometheusMetrics s acc e ha]
      simp only [storeAll, List.foldl_cons, ha]
      exact ih _
    | none =>
      rw [collectEvent_of_not_accepted parseOSMetrics makePrometheusMetrics s acc e ha hs]
      simp only [storeAll, List.foldl_cons, ha]
      exact ih _

theorem collectBatches_eq (s : scraper) (source : LogSource) :
    collectBatches parseOSMetrics makePrometheusMetrics s source =
      (pollEvents s source).foldlM (collectEvent parseOSMetrics makePrometheusMetrics s)
        { allMetrics := [], allMessages := [] } := by
  unfold collectBatches pollEvents
  rw [← foldlM_map_flatten]
  congr 1
  funext acc i
  unfold collectBatch collectAllMetrics
  exact foldlM_flatten _ _ _

end ScrapeLemmas


section StoredLemmas

variable {OSMetrics Metric : Type}
variable (parseOSMetrics : String → Bool → Except String OSMetrics)
variable (makePrometheusMetrics : OSMetrics → String → List (String × String) → List Metric)

theorem storeAll_WF (s : scraper) (events : List FilteredLogEvent) (acc : Acc Metric)
    (h : GoMap.WF acc.allMetrics) :
    GoMap.WF (storeAll parseOSMetrics makePrometheusMetrics s acc events).allMetrics := by
  induction events generalizing acc with
  | nil => exact h
  | cons e l ih =>
    simp only [storeAll, List.foldl_cons] at ih ⊢
    cases ha : accepted parseOSMetrics s e with
    | none => exact ih _ h
    | some p => exact ih _ (setNested_WF _ h _ _ _)

theorem storeAll_lookup_metrics (s : scraper) (rid : String) (ts : Time)
    (events : List FilteredLogEvent) (acc : Acc Metric)
    (o : Option (FilteredLogEvent × Instance × OSMetrics))
    (h : lookupNested acc.allMetrics rid ts =
      o.map (fun x => makePrometheusMetrics x.2.2 x.2.1.Region x.2.1.Labels)) :
    lookupNested (storeAll parseOSMetrics makePrometheusMetrics s acc events).allMetrics rid ts =
      (lastStoredFrom parseOSMetrics s rid ts o events).map
        (fun x => makePrometheusMetrics x.2.2 x.2.1.Region x.2.1.Labels) := by
  induction events generalizing acc o with
  | nil => exact h
  | cons e l ih =>
    simp only [storeAll, lastStoredFrom, List.foldl_cons] at ih ⊢
    cases ha : accepted parseOSMetrics s e with
    | none => exact ih _ _ h
    | some p =>
      apply ih
      simp only [storeEvent, lookupNested_setNested]
      by_cases hc : p.1.ResourceID = rid ∧ eventTime e = ts
      · simp [hc]
      · simp only [hc, if_false]
        exact h

theorem storeAll_lookup_messages (s : scraper) (rid : String) (ts : Time)
    (events : List FilteredLogEvent) (acc : Acc Metric)
    (o : Option (FilteredLogEvent × Instance × OSMetrics))
    (h : lookupNested acc.allMessages rid ts = o.map (fun x => x.1.Message)) :
    lookupNested (storeAll parseOSMetrics makePrometheusMetrics s acc events).allMessages rid ts =
      (lastStoredFrom parseOSMetrics s rid ts o events).map (fun x => x.1.Message) := by
  induction events generalizing acc o with
  | nil => exact h
  | cons e l ih =>
    simp only [storeAll, lastStoredFrom, List.foldl_cons] at ih ⊢
    cases ha : accepted parseOSMetrics s e with
    | none => exact ih _ _ h
    | some p =>
      apply ih
      simp only [storeEvent, lookupNested_setNested]
      by_cases hc : p.1.ResourceID = rid ∧ eventTime e = ts
      · simp [hc]
      · simp only [hc, if_false]
        exact h

theorem lastStoredFrom_isSome (s : scraper) (rid : String) (ts : Time)
    (events : List FilteredLogEvent) (o : Option (FilteredLogEvent × Instance × OSMetrics)) :
    (lastStoredFrom parseOSMetrics s rid ts o events).isSome ↔
      o.isSome ∨ ∃ e ∈ events, ∃ p, accepted parseOSMetrics s e = some p ∧
        p.1.ResourceID = rid ∧ eventTime e = ts := by
  induction events generalizing o with
  | nil => simp [lastStoredFrom]
  | cons e l ih =>
    simp only [lastStoredFrom, List.foldl_cons] at ih ⊢
    rw [ih]
    cases ha : accepted parseOSMetrics s e with
    | none => simp [ha]
    | some p =>
      by_cases hc : p.1.ResourceID = rid ∧ eventTime e = ts
      · simp only [hc, and_self, if_true, Option.isSome_some, true_or, true_iff]
        exact Or.inr ⟨e, List.mem_cons_self _ _, p, ha, hc.1, hc.2⟩
      · simp only [hc, if_false]
        constructor
        · rintro (h | ⟨e', he', hp'⟩)
          · exact Or.inl h
          · exact Or.inr ⟨e', List.mem_cons_of_mem _ he', hp'⟩
        · rintro (h | ⟨e', he', p', hp', hcond⟩)
          · exact Or.inl h
          · rcases List.mem_cons.mp he' with he' | he'
            · subst he'
              rw [ha] at hp'
              cases hp'
              exact absurd hcond hc
            · exact Or.inr ⟨e', he', p', hp', hcond⟩

theorem lastStored_isSome (s : scraper) (rid : String) (ts : Time)
    (events : List FilteredLogEvent) :
    (lastStored parseOSMetrics s rid ts events).isSome ↔
      ∃ e ∈ events, ∃ p, accepted parseOSMetrics s e = some p ∧
        p.1.ResourceID = rid ∧ eventTime e = ts := by
  unfold lastStored
  rw [lastStoredFrom_isSome]
  simp

theorem lastStored_spec (s : scraper) (rid : String) (ts : Time)
    (events : List FilteredLogEvent) (x : FilteredLogEvent × Instance × OSMetrics)
    (h : lastStored parseOSMetrics s rid ts events = some x) :
    ∃ pre post, events = pre ++ x.1 :: post ∧
      accepted parseOSMetrics s x.1 = some x.2 ∧ x.2.1.ResourceID = rid ∧ eventTime x.1 = ts ∧
      ∀ e' ∈ post, ∀ p, accepted parseOSMetrics s e' = some p →
        ¬ (p.1.ResourceID = rid ∧ eventTime e' = ts) := by
  induction events using List.reverseRecOn with
  | nil => simp [lastStored, lastStoredFrom] at h
  | append_singleton l e ih =>
    simp only [lastStored, lastStoredFrom, List.foldl_append, List.foldl_cons,
      List.foldl_nil] at h ih
    cases ha : accepted parseOSMetrics s e with
    | none =>
      simp only [ha] at h
      obtain ⟨pre, post, hl, hacc, hr, ht, hpost⟩ := ih h
      refine ⟨pre, post ++ [e], by simp [hl], hacc, hr, ht, ?_⟩
      intro e' he' p hp
      rcases List.mem_append.mp he' with he' | he'
      · exact hpost e' he' p hp
      · simp only [List.mem_singleton] at he'
        subst he'
        simp [ha] at hp
    | some p =>
      simp only [ha] at h
      by_cases hc : p.1.ResourceID = rid ∧ eventTime e = ts
      · simp only [hc, and_self, if_true, Option.some.injEq] at h
        subst h
        exact ⟨l, [], rfl, ha, hc.1, hc.2, by simp⟩
      · simp only [hc, if_false] at h
        obtain ⟨pre, post, hl, hacc, hr, ht, hpost⟩ := ih h
        refine ⟨pre, post ++ [e], by simp [hl], hacc, hr, ht, ?_⟩
        intro e' he' p' hp'
        rcases List.mem_append.mp he' with he' | he'
        · exact hpost e' he' p' hp'
        · simp only [List.mem_singleton] at he'
          subst he'
          rw [ha] at hp'
          cases hp'
          exact hc

end StoredLemmas


section PollLemmas

variable {OSMetrics Metric : Type}
variable (parseOSMetrics : String → Bool → Except String OSMetrics)
variable (makePrometheusMetrics : OSMetrics → String → List (String × String) → List Metric)

theorem scrape_eq_some (now : Time) (s : scraper) (source : LogSource)
    {r : (GoMap String (List Metric) × GoMap String String) × scraper}
    (h : scrape parseOSMetrics makePrometheusMetrics now s source = some r) :
    r = (latestOnly (pollAcc parseOSMetrics makePrometheusMetrics s source)
          (pollTimes parseOSMetrics makePrometheusMetrics now s source).1,
         { s with nextStartTime :=
            (pollTimes parseOSMetrics makePrometheusMetrics now s source).2 }) := by
  unfold scrape at h
  cases hc : collectBatches parseOSMetrics makePrometheusMetrics s source with
  | none => simp [hc] at h
  | some acc =>
    rw [collectBatches_eq] at hc
    have hacc := collect_events_eq_some parseOSMetrics makePrometheusMetrics s _ _ _ hc
    rw [collectBatches_eq, hc] at h
    simp only [Option.some.injEq] at h
    rw [← h, hacc]
    rfl

theorem scrape_of_strict_off (now : Time) (s : scraper) (source : LogSource)
    (hs : s.testDisallowUnknownFields = false) :
    scrape parseOSMetrics makePrometheusMetrics now s source =
      some (latestOnly (pollAcc parseOSMetrics makePrometheusMetrics s source)
          (pollTimes parseOSMetrics makePrometheusMetrics now s source).1,
         { s with nextStartTime :=
            (pollTimes parseOSMetrics makePrometheusMetrics now s source).2 }) := by
  unfold scrape
  rw [collectBatches_eq,
    collect_events_of_strict_off parseOSMetrics makePrometheusMetrics s hs]
  rfl

theorem pollAcc_WF (s : scraper) (source : LogSource) :
    GoMap.WF (pollAcc parseOSMetrics makePrometheusMetrics s source).allMetrics :=
  storeAll_WF parseOSMetrics makePrometheusMetrics s _ _ GoMap.WF_nil

theorem pollAcc_lookup_metrics (s : scraper) (source : LogSource) (rid : String) (ts : Time) :
    lookupNested (pollAcc parseOSMetrics makePrometheusMetrics s source).allMetrics rid ts =
      (lastStored parseOSMetrics s rid ts (pollEvents s source)).map
        (fun x => makePrometheusMetrics x.2.2 x.2.1.Region x.2.1.Labels) :=
  storeAll_lookup_metrics parseOSMetrics makePrometheusMetrics s rid ts _ _ none rfl

theorem pollAcc_lookup_messages (s : scraper) (source : LogSource) (rid : String) (ts : Time) :
    lookupNested (pollAcc parseOSMetrics makePrometheusMetrics s source).allMessages rid ts =
      (lastStored parseOSMetrics s rid ts (pollEvents s source)).map (fun x => x.1.Message) :=
  storeAll_lookup_messages parseOSMetrics makePrometheusMetrics s rid ts _ _ none rfl

theorem pollTimes_WF (now : Time) (s : scraper) (source : LogSource) :
    GoMap.WF (pollTimes parseOSMetrics makePrometheusMetrics now s source).1 :=
  betterTimes_WF _ _

/-- The selection made inside a poll: instance `rid` is selected with `t`
exactly when `t` is after the zero time, some accepted event of `rid` has
timestamp `t`, and no accepted event of `rid` has a later timestamp. -/
theorem pollTimes_get? (now : Time) (s : scraper) (source : LogSource) (rid : String)
    (t : Time) :
    (pollTimes parseOSMetrics makePrometheusMetrics now s source).1.get? rid = some t ↔
      zeroTime < t ∧ (lastStored parseOSMetrics s rid t (pollEvents s source)).isSome ∧
        ∀ u, (lastStored parseOSMetrics s rid u (pollEvents s source)).isSome → u ≤ t := by
  have hK : ∀ u, (lookupNested (pollAcc parseOSMetrics makePrometheusMetrics s
      source).allMetrics rid u).isSome =
      (lastStored parseOSMetrics s rid u (pollEvents s source)).isSome := by
    intro u
    rw [pollAcc_lookup_metrics, Option.isSome_map']
  unfold pollTimes
  rw [betterTimes_get? now _ (allTimesOf_WF _),
    allTimesOf_get? _ (pollAcc_WF parseOSMetrics makePrometheusMetrics s source)]
  cases hg : GoMap.get? (pollAcc parseOSMetrics makePrometheusMetrics s source).allMetrics rid with
  | none =>
    have hnone : ∀ u, lookupNested (pollAcc parseOSMetrics makePrometheusMetrics s
        source).allMetrics rid u = none := by
      intro u
      simp [lookupNested, hg, GoMap.get?]
    simp only [Option.map_none']
    constructor
    · intro h
      simp at h
    · rintro ⟨_, h, _⟩
      rw [← hK, hnone] at h
      simp at h
  | some inner =>
    have hmem : ∀ u, u ∈ GoMap.keys inner ↔
        (lastStored parseOSMetrics s rid u (pollEvents s source)).isSome = true := by
      intro u
      rw [← hK, GoMap.mem_keys_iff, Option.isSome_iff_exists]
      simp [lookupNested, hg]
    simp only [Option.map_some']
    constructor
    · intro h
      by_cases hpos : zeroTime < newestOf (GoMap.keys inner)
      · simp only [hpos, if_true, Option.some.injEq] at h
        subst h
        refine ⟨hpos, (hmem _).mp (newestOf_mem hpos), ?_⟩
        intro u hu
        exact newestFrom_ge_of_mem _ _ ((hmem u).mpr hu)
      · simp [hpos] at h
    · rintro ⟨hpos, hin, hmax⟩
      have htmem : t ∈ GoMap.keys inner := (hmem t).mpr hin
      have hpos' : zeroTime < newestOf (GoMap.keys inner) :=
        (newestOf_pos_iff _).mpr ⟨t, htmem, hpos⟩
      have heq : newestOf (GoMap.keys inner) = t :=
        le_antisymm (hmax _ ((hmem _).mp (newestOf_mem hpos')))
          (newestFrom_ge_of_mem _ _ htmem)
      rw [heq] at hpos'
      simp [hpos', heq]

theorem pollTimes_snd_le (now : Time) (s : scraper) (source : LogSource) (rid : String)
    (t : Time)
    (h : (pollTimes parseOSMetrics makePrometheusMetrics now s source).1.get? rid = some t) :
    (pollTimes parseOSMetrics makePrometheusMetrics now s source).2 ≤ t :=
  foldl_betterTimesStep_le _ _ (by intro k t hk; simp [GoMap.get?] at hk) rid t h

end PollLemmas


section PollResult

variable {OSMetrics Metric : Type}
variable (parseOSMetrics : String → Bool → Except String OSMetrics)
variable (makePrometheusMetrics : OSMetrics → String → List (String × String) → List Metric)

/-- The event behind a selected timestamp: the last accepted event of the
instance with that timestamp; its samples and its message are what the two
nested maps hold at the selected key, and no accepted event of the instance
is newer. -/
theorem poll_selected_event (now : Time) (s : scraper) (source : LogSource) (rid : String)
    (t : Time)
    (h : (pollTimes parseOSMetrics makePrometheusMetrics now s source).1.get? rid = some t) :
    ∃ pre e post inst om,
      pollEvents s source = pre ++ e :: post ∧
      accepted parseOSMetrics s e = some (inst, om) ∧
      e.LogStreamName = rid ∧ eventTime e = t ∧ zeroTime < t ∧
      getNested (pollAcc parseOSMetrics makePrometheusMetrics s source).allMetrics rid t [] =
        makePrometheusMetrics om inst.Region inst.Labels ∧
      getNested (pollAcc parseOSMetrics makePrometheusMetrics s source).allMessages rid t "" =
        e.Message ∧
      (∀ e' ∈ pollEvents s source, e'.LogStreamName = rid →
        (accepted parseOSMetrics s e').isSome → eventTime e' ≤ t) ∧
      (∀ e' ∈ post, e'.LogStreamName = rid →
        (accepted parseOSMetrics s e').isSome → eventTime e' ≠ t) := by
  obtain ⟨hpos, hsome, hmax⟩ := (pollTimes_get? parseOSMetrics makePrometheusMetrics now s
    source rid t).mp h
  obtain ⟨x, hx⟩ := Option.isSome_iff_exists.mp hsome
  obtain ⟨pre, post, hl, hacc, hr, ht, hpost⟩ :=
    lastStored_spec parseOSMetrics s rid t _ x hx
  obtain ⟨e, inst, om⟩ := x
  have hstream : e.LogStreamName = rid := by
    rw [← accepted_resourceID parseOSMetrics hacc]
    exact hr
  refine ⟨pre, e, post, inst, om, hl, hacc, hstream, ht, hpos, ?_, ?_, ?_, ?_⟩
  · rw [getNested_eq, pollAcc_lookup_metrics, hx]
    rfl
  · rw [getNested_eq, pollAcc_lookup_messages, hx]
    rfl
  · intro e' he' hs' ha'
    obtain ⟨p, hp⟩ := Option.isSome_iff_exists.mp ha'
    apply hmax
    rw [lastStored_isSome]
    refine ⟨e', he', p, hp, ?_, rfl⟩
    rw [accepted_resourceID parseOSMetrics hp]
    exact hs'
  · intro e' he' hs' ha' heq
    obtain ⟨p, hp⟩ := Option.isSome_iff_exists.mp ha'
    refine hpost e' he' p hp ⟨?_, heq⟩
    rw [accepted_resourceID parseOSMetrics hp]
    exact hs'

/-- An instance is selected inside a poll exactly when one of its accepted
events has a timestamp after the zero time. -/
theorem pollTimes_isSome (now : Time) (s : scraper) (source : LogSource) (rid : String) :
    (∃ t, (pollTimes parseOSMetrics makePrometheusMetrics now s source).1.get? rid = some t) ↔
      ∃ e ∈ pollEvents s source, e.LogStreamName = rid ∧
        (accepted parseOSMetrics s e).isSome ∧ zeroTime < eventTime e := by
  constructor
  · rintro ⟨t, ht⟩
    obtain ⟨pre, e, post, inst, om, hl, hacc, hstream, hte, hpos, _⟩ :=
      poll_selected_event parseOSMetrics makePrometheusMetrics now s source rid t ht
    refine ⟨e, ?_, hstream, ?_, ?_⟩
    · rw [hl]
      simp
    · rw [hacc]
      rfl
    · rw [hte]
      exact hpos
  · rintro ⟨e, he, hstream, hacc, hpos⟩
    obtain ⟨p, hp⟩ := Option.isSome_iff_exists.mp hacc
    have hrid : p.1.ResourceID = rid := by
      rw [accepted_resourceID parseOSMetrics hp]
      exact hstream
    have hstored : (lastStored parseOSMetrics s rid (eventTime e) (pollEvents s source)).isSome :=
      (lastStored_isSome parseOSMetrics s rid _ _).mpr ⟨e, he, p, hp, hrid, rfl⟩
    have hlook : (lookupNested (pollAcc parseOSMetrics makePrometheusMetrics s
        source).allMetrics rid (eventTime e)).isSome := by
      rw [pollAcc_lookup_metrics, Option.isSome_map']
      exact hstored
    cases hg : GoMap.get? (pollAcc parseOSMetrics makePrometheusMetrics s source).allMetrics
        rid with
    | none => simp [lookupNested, hg, GoMap.get?] at hlook
    | some inner =>
      have hmem : eventTime e ∈ GoMap.keys inner := by
        rw [GoMap.mem_keys_iff, ← Option.isSome_iff_exists]
        simpa [lookupNested, hg] using hlook
      have hnew : zeroTime < newestOf (GoMap.keys inner) :=
        (newestOf_pos_iff _).mpr ⟨_, hmem, hpos⟩
      refine ⟨newestOf (GoMap.keys inner), ?_⟩
      unfold pollTimes
      rw [betterTimes_get? now _ (allTimesOf_WF _),
        allTimesOf_get? _ (pollAcc_WF parseOSMetrics makePrometheusMetrics s source), hg]
      simp [hnew]

theorem latestOnly_keys {Metric : Type} (acc : Acc Metric) (times : GoMap String Time) :
    GoMap.keys (latestOnly acc times).1 = GoMap.keys (latestOnly acc times).2 := by
  unfold latestOnly
  have hgen : ∀ (a : GoMap String (List Metric)) (b : GoMap String String),
      GoMap.keys a = GoMap.keys b →
      GoMap.keys (times.foldl
        (fun res entry =>
          (res.1.set entry.1 (getNested acc.allMetrics entry.1 entry.2 []),
           res.2.set entry.1 (getNested acc.allMessages entry.1 entry.2 ""))) (a, b)).1 =
      GoMap.keys (times.foldl
        (fun res entry =>
          (res.1.set entry.1 (getNested acc.allMetrics entry.1 entry.2 []),
           res.2.set entry.1 (getNested acc.allMessages entry.1 entry.2 ""))) (a, b)).2 := by
    induction times with
    | nil => intro a b h; exact h
    | cons e l ih =>
      intro a b h
      simp only [List.foldl_cons]
      apply ih
      rw [GoMap.keys_set, GoMap.keys_set, h]
  exact hgen [] [] rfl

theorem latestOnly_mem_keys {Metric : Type} (acc : Acc Metric) (times : GoMap String Time)
    (k : String) :
    k ∈ GoMap.keys (latestOnly acc times).1 ↔ ∃ t, GoMap.get? times k = some t := by
  rw [latestOnly_fst, foldl_set_keys (fun k t => getNested acc.allMetrics k t []) times [] k,
    ← GoMap.mem_keys_iff]
  simp [GoMap.keys]

end PollResult


/-! ## Theorems on scrape -/

theorem wrapInt64_gt_zeroTime (x : Int) : zeroTime < wrapInt64 x := by
  unfold wrapInt64 zeroTime
  have h := Int.emod_nonneg (x + 2 ^ 63) (by norm_num : (2 : Int) ^ 64 ≠ 0)
  generalize (x + 2 ^ 63) % 2 ^ 64 = r at h ⊢
  norm_num
  linarith

theorem eventTime_pos_iff (e : FilteredLogEvent) : zeroTime < eventTime e ↔ e.Timestamp ≠ none := by
  unfold eventTime MillisecondsTimeValue
  cases e.Timestamp with
  | none => simp
  | some ms => simp [wrapInt64_gt_zeroTime]

/-- C2: in `betterTimes`, for every input (with or without repeated keys),
the returned next watermark is less than or equal to the selected timestamp
of every instance of the returned selection; in `scrape`, whenever a poll
returns, every instance of the returned sample map has an accepted event
whose timestamp is the greatest among the accepted events of that instance,
and the new `nextStartTime` is less than or equal to that timestamp. -/
theorem watermark_le_selected :
    (∀ (now : Time) (allTimes : GoMap String (List Time)) (rid : String) (t : Time),
      (betterTimes now allTimes).1.get? rid = some t → (betterTimes now allTimes).2 ≤ t) ∧
    (∀ (OSMetrics Metric : Type) (parseOSMetrics : String → Bool → Except String OSMetrics)
      (makePrometheusMetrics : OSMetrics → String → List (String × String) → List Metric)
      (now : Time) (s : scraper) (source : LogSource)
      (res : GoMap String (List Metric) × GoMap String String) (s' : scraper),
      scrape parseOSMetrics makePrometheusMetrics now s source = some (res, s') →
      ∀ rid ∈ GoMap.keys res.1,
        ∃ e ∈ pollEvents s source, e.LogStreamName = rid ∧
          (accepted parseOSMetrics s e).isSome ∧
          (∀ e' ∈ pollEvents s source, e'.LogStreamName = rid →
            (accepted parseOSMetrics s e').isSome → eventTime e' ≤ eventTime e) ∧
          s'.nextStartTime ≤ eventTime e) := by
  constructor
  · intro now allTimes rid t h
    exact foldl_betterTimesStep_le allTimes _
      (by intro k t hk; simp [GoMap.get?] at hk) rid t h
  · intro OSMetrics Metric parseOSMetrics makePrometheusMetrics now s source res s' hs rid hk
    have hr := scrape_eq_some parseOSMetrics makePrometheusMetrics now s source hs
    simp only [Prod.mk.injEq] at hr
    obtain ⟨hres, hs'⟩ := hr
    rw [hres] at hk
    obtain ⟨t, ht⟩ := (latestOnly_mem_keys _ _ rid).mp hk
    obtain ⟨pre, e, post, inst, om, hl, hacc, hstream, hte, _, _, _, hmax, _⟩ :=
      poll_selected_event parseOSMetrics makePrometheusMetrics now s source rid t ht
    refine ⟨e, ?_, hstream, ?_, ?_, ?_⟩
    · rw [hl]
      simp
    · rw [hacc]
      rfl
    · rw [hte]
      exact hmax
    · rw [hs', hte]
      exact pollTimes_snd_le parseOSMetrics makePrometheusMetrics now s source rid t ht

/-- Witness of C2: the first poll of the spec's example, in `betterTimes`
and in `scrape`. -/
theorem watermark_le_selected_witness :
    (betterTimes 100 [("A", [10]), ("B", [12])]).2 ≤ 10 ∧
    ∃ e ∈ pollEvents sampleScraper
        (fun _ _ => [[sampleEvent "A" 10 "xx", sampleEvent "B" 12 "yyy"]]),
      e.LogStreamName = "A" ∧ (accepted sampleParse sampleScraper e).isSome ∧
      (∀ e' ∈ pollEvents sampleScraper
          (fun _ _ => [[sampleEvent "A" 10 "xx", sampleEvent "B" 12 "yyy"]]),
        e'.LogStreamName = "A" → (accepted sampleParse sampleScraper e').isSome →
          eventTime e' ≤ eventTime e) ∧
      (10000000 : Time) ≤ eventTime e :=
  ⟨watermark_le_selected.1 100 [("A", [10]), ("B", [12])] "A" 10 (by decide),
   watermark_le_selected.2 Nat (String × Nat) sampleParse sampleMetrics 1000000000
    sampleScraper (fun _ _ => [[sampleEvent "A" 10 "xx", sampleEvent "B" 12 "yyy"]])
    ([("A", [("r1", 2)]), ("B", [("r2", 3)])], [("A", "xx"), ("B", "yyy")])
    { sampleScraper with nextStartTime := 10000000 } (by rfl) "A" (by decide)⟩

section ScrapeClaims

variable {OSMetrics Metric : Type}
variable (parseOSMetrics : String → Bool → Except String OSMetrics)
variable (makePrometheusMetrics : OSMetrics → String → List (String × String) → List Metric)

/-- C6: whenever a poll returns, each instance present in the returned
sample map is mapped, in the sample map and in the message map, to the samples
and the raw message of one and the same accepted event of that instance; the
timestamp of that event (the event's `Timestamp`, not `IngestionTime`) is the
greatest among the accepted events of that instance in this poll, and among
the accepted events of that instance with that timestamp it is the last one
processed. -/
theorem scrape_result_single_event (now : Time) (s : scraper) (source : LogSource)
    (res : GoMap String (List Metric) × GoMap String String) (s' : scraper) (rid : String)
    (hs : scrape parseOSMetrics makePrometheusMetrics now s source = some (res, s'))
    (hk : rid ∈ GoMap.keys res.1) :
    ∃ pre e post inst om,
      pollEvents s source = pre ++ e :: post ∧
      accepted parseOSMetrics s e = some (inst, om) ∧
      e.LogStreamName = rid ∧
      res.1.get? rid = some (makePrometheusMetrics om inst.Region inst.Labels) ∧
      res.2.get? rid = some e.Message ∧
      eventTime e = MillisecondsTimeValue e.Timestamp ∧
      (∀ e' ∈ pollEvents s source, e'.LogStreamName = rid →
        (accepted parseOSMetrics s e').isSome → eventTime e' ≤ eventTime e) ∧
      (∀ e' ∈ post, e'.LogStreamName = rid →
        (accepted parseOSMetrics s e').isSome → eventTime e' ≠ eventTime e) := by
  have hr := scrape_eq_some parseOSMetrics makePrometheusMetrics now s source hs
  simp only [Prod.mk.injEq] at hr
  obtain ⟨hres, _⟩ := hr
  rw [hres] at hk ⊢
  obtain ⟨t, ht⟩ := (latestOnly_mem_keys _ _ rid).mp hk
  obtain ⟨pre, e, post, inst, om, hl, hacc, hstream, hte, _, hmet, hmsg, hmax, hlast⟩ :=
    poll_selected_event parseOSMetrics makePrometheusMetrics now s source rid t ht
  have hwf := pollTimes_WF parseOSMetrics makePrometheusMetrics now s source
  refine ⟨pre, e, post, inst, om, hl, hacc, hstream, ?_, ?_, rfl, ?_, ?_⟩
  · rw [latestOnly_fst_get? _ _ hwf, ht, Option.map_some', hmet]
  · rw [latestOnly_snd_get? _ _ hwf, ht, Option.map_some', hmsg]
  · rw [hte]
    exact hmax
  · rw [hte]
    exact hlast

end ScrapeClaims


/-- Witness of C6: instance `A` reports at 10, 30, 20 and again at 30 ms; the
result holds the samples and the message of the second event at 30 ms. -/
theorem scrape_result_single_event_witness :
    ∃ pre e post inst om,
      pollEvents sampleScraper
        (fun _ _ => [[sampleEvent "A" 10 "x", sampleEvent "A" 30 "yy", sampleEvent "B" 12 "b"],
          [sampleEvent "A" 20 "zzz", sampleEvent "A" 30 "wwww"]]) = pre ++ e :: post ∧
      accepted sampleParse sampleScraper e = some (inst, om) ∧
      e.LogStreamName = "A" ∧
      GoMap.get? [("A", [("r1", 4)]), ("B", [("r2", 1)])] "A" =
        some (sampleMetrics om inst.Region inst.Labels) ∧
      GoMap.get? [("A", "wwww"), ("B", "b")] "A" = some e.Message ∧
      eventTime e = MillisecondsTimeValue e.Timestamp ∧
      (∀ e' ∈ pollEvents sampleScraper
        (fun _ _ => [[sampleEvent "A" 10 "x", sampleEvent "A" 30 "yy", sampleEvent "B" 12 "b"],
          [sampleEvent "A" 20 "zzz", sampleEvent "A" 30 "wwww"]]), e'.LogStreamName = "A" →
        (accepted sampleParse sampleScraper e').isSome → eventTime e' ≤ eventTime e) ∧
      (∀ e' ∈ post, e'.LogStreamName = "A" →
        (accepted sampleParse sampleScraper e').isSome → eventTime e' ≠ eventTime e) :=
  scrape_result_single_event sampleParse sampleMetrics 1000000000 sampleScraper
    (fun _ _ => [[sampleEvent "A" 10 "x", sampleEvent "A" 30 "yy", sampleEvent "B" 12 "b"],
      [sampleEvent "A" 20 "zzz", sampleEvent "A" 30 "wwww"]])
    ([("A", [("r1", 4)]), ("B", [("r2", 1)])], [("A", "wwww"), ("B", "b")])
    { sampleScraper with nextStartTime := 12000000 } "A" (by rfl) (by decide)

section KeyClaims

variable {OSMetrics Metric : Type}
variable (parseOSMetrics : String → Bool → Except String OSMetrics)
variable (makePrometheusMetrics : OSMetrics → String → List (String × String) → List Metric)

/-- The keys of the returned maps: whenever a poll returns, a resource
identifier is a key of the returned sample map exactly when some accepted
event of that instance has a timestamp later than the zero time; the message
map has the same keys; and an event's timestamp is later than the zero time
exactly when the event carries a timestamp. -/
theorem scrape_keys_of_timed_events (now : Time) (s : scraper) (source : LogSource)
    (res : GoMap String (List Metric) × GoMap String String) (s' : scraper) (rid : String)
    (hs : scrape parseOSMetrics makePrometheusMetrics now s source = some (res, s')) :
    (rid ∈ GoMap.keys res.1 ↔
      ∃ e ∈ pollEvents s source, e.LogStreamName = rid ∧
        (accepted parseOSMetrics s e).isSome ∧ zeroTime < eventTime e) ∧
    GoMap.keys res.2 = GoMap.keys res.1 ∧
    ∀ e : FilteredLogEvent, zeroTime < eventTime e ↔ e.Timestamp ≠ none := by
  have hr := scrape_eq_some parseOSMetrics makePrometheusMetrics now s source hs
  simp only [Prod.mk.injEq] at hr
  obtain ⟨hres, _⟩ := hr
  rw [hres]
  refine ⟨?_, (latestOnly_keys _ _).symm, eventTime_pos_iff⟩
  rw [latestOnly_mem_keys]
  exact pollTimes_isSome parseOSMetrics makePrometheusMetrics now s source rid

/-- C7: whenever a poll returns on events that all carry a timestamp (as the
events delivered by the log source do), a resource identifier is a key of the
returned sample map if and only if at least one event of that instance was
accepted (matched, enabled, decoded) in this poll; the returned message map
has exactly the same keys, so an instance with no accepted event this poll is
absent from both. -/
theorem scrape_keys_iff (now : Time) (s : scraper) (source : LogSource)
    (res : GoMap String (List Metric) × GoMap String String) (s' : scraper) (rid : String)
    (hs : scrape parseOSMetrics makePrometheusMetrics now s source = some (res, s'))
    (hts : ∀ e ∈ pollEvents s source, e.Timestamp ≠ none) :
    (rid ∈ GoMap.keys res.1 ↔
      ∃ e ∈ pollEvents s source, e.LogStreamName = rid ∧
        (accepted parseOSMetrics s e).isSome) ∧
    GoMap.keys res.2 = GoMap.keys res.1 := by
  obtain ⟨h₁, h₂, h₃⟩ :=
    scrape_keys_of_timed_events parseOSMetrics makePrometheusMetrics now s source res s' rid hs
  refine ⟨?_, h₂⟩
  rw [h₁]
  constructor
  · rintro ⟨e, he, hstream, ha, _⟩
    exact ⟨e, he, hstream, ha⟩
  · rintro ⟨e, he, hstream, ha⟩
    exact ⟨e, he, hstream, ha, (h₃ e).mpr (hts e he)⟩

/-- C4, amended: `betterTimes` applied to a map with no instances returns an
empty selection and the clock reading; consequently, for every scraper state,
a poll in which no event is accepted and which returns, returns empty sample
and message maps and sets `nextStartTime` to the clock reading; with strict
validation off such a poll always returns. -/
theorem scrape_no_accepted_event (now : Time) (s : scraper) (source : LogSource)
    (hno : ∀ e ∈ pollEvents s source, accepted parseOSMetrics s e = none) :
    betterTimes now [] = ([], now) ∧
    (∀ r, scrape parseOSMetrics makePrometheusMetrics now s source = some r →
      r = (([], []), { s with nextStartTime := now })) ∧
    (s.testDisallowUnknownFields = false →
      scrape parseOSMetrics makePrometheusMetrics now s source =
        some (([], []), { s with nextStartTime := now })) := by
  have hacc : pollAcc parseOSMetrics makePrometheusMetrics s source =
      { allMetrics := [], allMessages := [] } := by
    unfold pollAcc storeAll
    generalize ({ allMetrics := [], allMessages := [] } : Acc Metric) = acc
    generalize pollEvents s source = events at hno
    induction events with
    | nil => rfl
    | cons e l ih =>
      simp only [List.foldl_cons, hno e (List.mem_cons_self _ _)]
      exact ih (fun e' he' => hno e' (List.mem_cons_of_mem _ he'))
  have htimes : pollTimes parseOSMetrics makePrometheusMetrics now s source = ([], now) := by
    unfold pollTimes
    rw [hacc]
    rfl
  refine ⟨rfl, ?_, ?_⟩
  · intro r hr
    rw [scrape_eq_some parseOSMetrics makePrometheusMetrics now s source hr, htimes]
    rfl
  · intro hstrict
    rw [scrape_of_strict_off parseOSMetrics makePrometheusMetrics now s source hstrict, htimes]
    rfl

end KeyClaims

/-- An event without timestamp is stored under the zero time and is never
selected: an event of the enabled instance `A` that carries no timestamp is
accepted, yet `A` is not a key of the returned sample map. -/
theorem scrape_event_without_timestamp :
    (∃ e ∈ pollEvents sampleScraper
        (fun _ _ => [[{ sampleEvent "A" 10 "xx" with Timestamp := none }]]),
      e.LogStreamName = "A" ∧ (accepted sampleParse sampleScraper e).isSome) ∧
    ∃ r, scrape sampleParse sampleMetrics 1000000000 sampleScraper
        (fun _ _ => [[{ sampleEvent "A" 10 "xx" with Timestamp := none }]]) = some r ∧
      "A" ∉ GoMap.keys r.1.1 := by
  refine ⟨⟨{ sampleEvent "A" 10 "xx" with Timestamp := none }, by decide, rfl, by rfl⟩,
    (([], []), { sampleScraper with nextStartTime := zeroTime }), by rfl, by simp [GoMap.keys]⟩

/-- Witness of C7: instance `A` reports at 10 ms and is a key of both
returned maps. -/
theorem scrape_keys_iff_witness :
    ("A" ∈ GoMap.keys [("A", [("r1", 2)]), ("B", [("r2", 3)])] ↔
      ∃ e ∈ pollEvents sampleScraper
          (fun _ _ => [[sampleEvent "A" 10 "xx", sampleEvent "B" 12 "yyy"]]),
        e.LogStreamName = "A" ∧ (accepted sampleParse sampleScraper e).isSome) ∧
    GoMap.keys [("A", "xx"), ("B", "yyy")] =
      GoMap.keys [("A", [("r1", 2)]), ("B", [("r2", 3)])] :=
  scrape_keys_iff sampleParse sampleMetrics 1000000000 sampleScraper
    (fun _ _ => [[sampleEvent "A" 10 "xx", sampleEvent "B" 12 "yyy"]])
    ([("A", [("r1", 2)]), ("B", [("r2", 3)])], [("A", "xx"), ("B", "yyy")])
    { sampleScraper with nextStartTime := 10000000 } "A" (by rfl)
    (by
      intro e he
      have h : e = sampleEvent "A" 10 "xx" ∨ e = sampleEvent "B" 12 "yyy" := by
        simpa [pollEvents, forIndices, sampleScraper] using he
      rcases h with h | h <;> subst h <;> simp [sampleEvent])

/-- Counterexample to C4 as stated: with strict validation on, a poll whose
only event fails to decode accepts no event and panics, so it returns no maps
and does not touch `nextStartTime`. -/
theorem scrape_strict_panics :
    (∀ e ∈ pollEvents { sampleScraper with testDisallowUnknownFields := true }
        (fun _ _ => [[sampleEvent "A" 10 "!"]]),
      accepted sampleParse { sampleScraper with testDisallowUnknownFields := true } e = none) ∧
    scrape sampleParse sampleMetrics 1000000000
      { sampleScraper with testDisallowUnknownFields := true }
      (fun _ _ => [[sampleEvent "A" 10 "!"]]) = none := by
  constructor
  · intro e he
    have : e = sampleEvent "A" 10 "!" := by simpa [pollEvents, forIndices, sampleScraper] using he
    subst this
    rfl
  · rfl

/-- Witness of the amended C4: a poll whose events belong to an unknown
stream, to a disabled instance, or fail to decode. -/
theorem scrape_no_accepted_event_witness :
    betterTimes 1000000000 [] = ([], 1000000000) ∧
    (∀ r, scrape sampleParse sampleMetrics 1000000000 sampleScraper
        (fun _ _ => [[sampleEvent "Z" 10 "xx", sampleEvent "C" 11 "yy", sampleEvent "A" 12 "!"]])
        = some r → r = (([], []), { sampleScraper with nextStartTime := 1000000000 })) ∧
    (sampleScraper.testDisallowUnknownFields = false →
      scrape sampleParse sampleMetrics 1000000000 sampleScraper
        (fun _ _ => [[sampleEvent "Z" 10 "xx", sampleEvent "C" 11 "yy", sampleEvent "A" 12 "!"]])
        = some (([], []), { sampleScraper with nextStartTime := 1000000000 })) :=
  scrape_no_accepted_event sampleParse sampleMetrics 1000000000 sampleScraper
    (fun _ _ => [[sampleEvent "Z" 10 "xx", sampleEvent "C" 11 "yy", sampleEvent "A" 12 "!"]])
    (by
      intro e he
      have h : e = sampleEvent "Z" 10 "xx" ∨ e = sampleEvent "C" 11 "yy" ∨
          e = sampleEvent "A" 12 "!" := by
        simpa [pollEvents, forIndices, sampleScraper] using he
      rcases h with h | h | h <;> subst h <;> rfl)


/-! ## Monotonicity of the watermark -/

theorem GoMap.mem_set {κ ν : Type} [DecidableEq κ] {m : GoMap κ ν} {k : κ} {v : ν}
    {p : κ × ν} (h : p ∈ GoMap.set m k v) : p = (k, v) ∨ p ∈ m := by
  induction m with
  | nil =>
    simp only [GoMap.set, List.mem_singleton] at h
    exact Or.inl h
  | cons q m ih =>
    obtain ⟨k', v'⟩ := q
    by_cases hk : k' = k
    · simp only [GoMap.set, hk, if_true, List.mem_cons] at h
      rcases h with h | h
      · exact Or.inl h
      · exact Or.inr (List.mem_cons_of_mem _ h)
    · simp only [GoMap.set, hk, if_false, List.mem_cons] at h
      rcases h with h | h
      · exact Or.inr (h ▸ List.mem_cons_self _ _)
      · rcases ih h with h' | h'
        · exact Or.inl h'
        · exact Or.inr (List.mem_cons_of_mem _ h')

theorem GoMap.set_ne_nil {κ ν : Type} [DecidableEq κ] (m : GoMap κ ν) (k : κ) (v : ν) :
    GoMap.set m k v ≠ [] := by
  cases m with
  | nil => simp [GoMap.set]
  | cons q m =>
    obtain ⟨k', v'⟩ := q
    by_cases hk : k' = k <;> simp [GoMap.set, hk]

theorem foldl_min_ge (w b : Time) (l : List Time) (hb : w ≤ b) (hl : ∀ x ∈ l, w ≤ x) :
    w ≤ l.foldl min b := by
  rcases foldl_min_eq_or_mem b l with h | h
  · rw [h]
    exact hb
  · exact hl _ h

section Monotone

variable {OSMetrics Metric : Type}
variable (parseOSMetrics : String → Bool → Except String OSMetrics)
variable (makePrometheusMetrics : OSMetrics → String → List (String × String) → List Metric)

theorem storeAll_inner_ne_nil (s : scraper) (events : List FilteredLogEvent) (acc : Acc Metric)
    (h : ∀ p ∈ acc.allMetrics, p.2 ≠ []) :
    ∀ p ∈ (storeAll parseOSMetrics makePrometheusMetrics s acc events).allMetrics, p.2 ≠ [] := by
  induction events generalizing acc with
  | nil => exact h
  | cons e l ih =>
    simp only [storeAll, List.foldl_cons] at ih ⊢
    cases ha : accepted parseOSMetrics s e with
    | none => exact ih _ h
    | some q =>
      apply ih
      intro p hp
      simp only [storeEvent, setNested] at hp
      rcases GoMap.mem_set hp with hp | hp
      · rw [hp]
        exact GoMap.set_ne_nil _ _ _
      · exact h p hp

/-- C5, amended: for every scraper state and every poll that returns, if the
clock reading taken by the poll is not earlier than the watermark
`nextStartTime` before the poll, and every instance with an accepted event in
the poll has at least one accepted event whose timestamp is not earlier than
that watermark (older accepted events of the instance may come with it), then
the watermark after the poll is greater than or equal to the watermark before
the poll. -/
theorem scrape_watermark_monotone (now : Time) (s : scraper) (source : LogSource)
    (res : GoMap String (List Metric) × GoMap String String) (s' : scraper)
    (hs : scrape parseOSMetrics makePrometheusMetrics now s source = some (res, s'))
    (hclock : s.nextStartTime ≤ now)
    (hfresh : ∀ e ∈ pollEvents s source, (accepted parseOSMetrics s e).isSome →
      ∃ e' ∈ pollEvents s source, e'.LogStreamName = e.LogStreamName ∧
        (accepted parseOSMetrics s e').isSome ∧ s.nextStartTime ≤ eventTime e') :
    s.nextStartTime ≤ s'.nextStartTime := by
  have hr := scrape_eq_some parseOSMetrics makePrometheusMetrics now s source hs
  simp only [Prod.mk.injEq] at hr
  obtain ⟨_, hs'⟩ := hr
  rw [hs']
  show s.nextStartTime ≤ (pollTimes parseOSMetrics makePrometheusMetrics now s source).2
  unfold pollTimes
  rw [betterTimes_snd]
  apply foldl_min_ge _ _ _ hclock
  intro x hx
  obtain ⟨entry, hentry, rfl⟩ := List.mem_map.mp hx
  obtain ⟨rid, l⟩ := entry
  have hwf := pollAcc_WF parseOSMetrics makePrometheusMetrics s source
  have hget := GoMap.get?_eq_some_of_mem (allTimesOf_WF _) hentry
  rw [allTimesOf_get? _ hwf] at hget
  cases hg : GoMap.get? (pollAcc parseOSMetrics makePrometheusMetrics s source).allMetrics
      rid with
  | none => simp [hg] at hget
  | some inner =>
    simp only [hg, Option.map_some', Option.some.injEq] at hget
    have hne : inner ≠ [] :=
      storeAll_inner_ne_nil parseOSMetrics makePrometheusMetrics s _ _
        (by intro p hp; simp at hp) (rid, inner) (GoMap.mem_of_get?_eq_some hg)
    obtain ⟨q, hq⟩ := List.exists_mem_of_ne_nil inner hne
    have hu : q.1 ∈ GoMap.keys inner := List.mem_map.mpr ⟨q, hq, rfl⟩
    have hsome : (lookupNested (pollAcc parseOSMetrics makePrometheusMetrics s
        source).allMetrics rid q.1).isSome := by
      have := (GoMap.mem_keys_iff inner q.1).mp hu
      rw [Option.isSome_iff_exists]
      simpa [lookupNested, hg] using this
    rw [pollAcc_lookup_metrics, Option.isSome_map', lastStored_isSome] at hsome
    obtain ⟨e, he, p, hp, hrid, _⟩ := hsome
    have hstream : e.LogStreamName = rid := by
      rw [← accepted_resourceID parseOSMetrics hp]
      exact hrid
    obtain ⟨e', he', hsame, ha', hle⟩ := hfresh e he (by rw [hp]; rfl)
    obtain ⟨p', hp'⟩ := Option.isSome_iff_exists.mp ha'
    have hrid' : p'.1.ResourceID = rid := by
      rw [accepted_resourceID parseOSMetrics hp', hsame, hstream]
    have hstored : (lastStored parseOSMetrics s rid (eventTime e')
        (pollEvents s source)).isSome :=
      (lastStored_isSome parseOSMetrics s rid _ _).mpr ⟨e', he', p', hp', hrid', rfl⟩
    have hlook : (lookupNested (pollAcc parseOSMetrics makePrometheusMetrics s
        source).allMetrics rid (eventTime e')).isSome := by
      rw [pollAcc_lookup_metrics, Option.isSome_map']
      exact hstored
    have hmem' : eventTime e' ∈ GoMap.keys inner := by
      rw [GoMap.mem_keys_iff, ← Option.isSome_iff_exists]
      simpa [lookupNested, hg] using hlook
    show s.nextStartTime ≤ newestOf l
    rw [← hget]
    exact le_trans hle (newestFrom_ge_of_mem _ _ hmem')

theorem accepted_eq_none_iff (s : scraper) (e : FilteredLogEvent) :
    accepted parseOSMetrics s e = none ↔
      findInstance s.instances e.LogStreamName = none ∨
      ∃ inst, findInstance s.instances e.LogStreamName = some inst ∧
        (inst.DisableEnhancedMetrics = true ∨
          ∃ err, parseOSMetrics e.Message s.testDisallowUnknownFields = .error err) := by
  unfold accepted
  cases hf : findInstance s.instances e.LogStreamName with
  | none => simp
  | some inst =>
    by_cases hd : inst.DisableEnhancedMetrics = true
    · simp [hd]
    · cases hp : parseOSMetrics e.Message s.testDisallowUnknownFields with
      | error err => simp [hd]
      | ok om => simp [hd]

theorem storeAll_filter (s : scraper) (events : List FilteredLogEvent) (acc : Acc Metric) :
    storeAll parseOSMetrics makePrometheusMetrics s acc
        (events.filter (fun e => (accepted parseOSMetrics s e).isSome)) =
      storeAll parseOSMetrics makePrometheusMetrics s acc events := by
  induction events generalizing acc with
  | nil => rfl
  | cons e l ih =>
    cases ha : accepted parseOSMetrics s e with
    | none =>
      simp only [List.filter_cons, ha, Option.isSome_none, Bool.false_eq_true, if_false]
      rw [ih]
      simp only [storeAll, List.foldl_cons, ha]
    | some p =>
      simp only [List.filter_cons, ha, Option.isSome_some, if_true]
      simp only [storeAll, List.foldl_cons, ha] at ih ⊢
      exact ih _

/-- C9: with strict validation off, an event is not accepted exactly when
its stream name matches no configured instance, or the matching instance has
enhanced metrics disabled, or its body fails to decode; such an event leaves
the accumulation maps as they are and lets the loop go on; a poll always
returns,
and two polls of the same scraper with the same clock reading whose event
sequences differ only in events that are not accepted return the same
samples, the same messages and the same next watermark. -/
theorem scrape_skips_rejected (now : Time) (s : scraper) (source source' : LogSource)
    (hstrict : s.testDisallowUnknownFields = false)
    (hsame : (pollEvents s source').filter (fun e => (accepted parseOSMetrics s e).isSome) =
      (pollEvents s source).filter (fun e => (accepted parseOSMetrics s e).isSome)) :
    (∀ e : FilteredLogEvent, accepted parseOSMetrics s e = none ↔
      findInstance s.instances e.LogStreamName = none ∨
      ∃ inst, findInstance s.instances e.LogStreamName = some inst ∧
        (inst.DisableEnhancedMetrics = true ∨
          ∃ err, parseOSMetrics e.Message s.testDisallowUnknownFields = .error err)) ∧
    (∀ (acc : Acc Metric) (e : FilteredLogEvent), accepted parseOSMetrics s e = none →
      collectEvent parseOSMetrics makePrometheusMetrics s acc e = some acc) ∧
    (scrape parseOSMetrics makePrometheusMetrics now s source).isSome ∧
    scrape parseOSMetrics makePrometheusMetrics now s source' =
      scrape parseOSMetrics makePrometheusMetrics now s source := by
  have hacc : pollAcc parseOSMetrics makePrometheusMetrics s source' =
      pollAcc parseOSMetrics makePrometheusMetrics s source := by
    unfold pollAcc
    rw [← storeAll_filter parseOSMetrics makePrometheusMetrics s (pollEvents s source'),
      ← storeAll_filter parseOSMetrics makePrometheusMetrics s (pollEvents s source), hsame]
  refine ⟨accepted_eq_none_iff parseOSMetrics s, fun acc e ha =>
    collectEvent_of_not_accepted parseOSMetrics makePrometheusMetrics s acc e ha hstrict, ?_, ?_⟩
  · rw [scrape_of_strict_off parseOSMetrics makePrometheusMetrics now s source hstrict]
    rfl
  · rw [scrape_of_strict_off parseOSMetrics makePrometheusMetrics now s source hstrict,
      scrape_of_strict_off parseOSMetrics makePrometheusMetrics now s source' hstrict]
    unfold pollTimes
    rw [hacc]

end Monotone

/-- Counterexample to C5 as stated: the watermark before the poll is 15 ms
and 500 ns, so the request asks for events from 15 ms on; the source returns
one event of instance `A` at 15 ms, the clock reads one second, and the
watermark after the poll is 15 ms, earlier than before. -/
theorem scrape_watermark_regresses :
    pollEvents { sampleScraper with nextStartTime := 15000500 }
      (fun _ _ => [[sampleEvent "A" 15 "xx"]]) = [sampleEvent "A" 15 "xx"] ∧
    (sampleEvent "A" 15 "xx").Timestamp = some 15 ∧
    (batchInput { sampleScraper with nextStartTime := 15000500 } 0).StartTime ≤ 15 ∧
    (15000500 : Time) ≤ 1000000000 ∧
    ∃ r, scrape sampleParse sampleMetrics 1000000000
        { sampleScraper with nextStartTime := 15000500 }
        (fun _ _ => [[sampleEvent "A" 15 "xx"]]) = some r ∧
      r.2.nextStartTime = 15000000 ∧
      r.2.nextStartTime < ({ sampleScraper with nextStartTime := 15000500 } : scraper).nextStartTime := by
  refine ⟨by rfl, rfl, by decide, by decide,
    (([("A", [("r1", 2)])], [("A", "xx")]), { sampleScraper with nextStartTime := 15000000 }),
    by rfl, rfl, by decide⟩

/-- Witness of the amended C5: the third poll of the spec's example, with
the watermark at 15 ms; instance `B` reports a stale event at 12 ms and a
fresh one at 20 ms, and the watermark moves to 20 ms. -/
theorem scrape_watermark_monotone_witness :
    scrape sampleParse sampleMetrics 1000000000
        { sampleScraper with nextStartTime := 15000000 }
        (fun _ _ => [[sampleEvent "B" 12 "b", sampleEvent "B" 20 "bb"]]) =
      some (([("B", [("r2", 2)])], [("B", "bb")]),
        { sampleScraper with nextStartTime := 20000000 }) ∧
    ({ sampleScraper with nextStartTime := 15000000 } : scraper).nextStartTime ≤
      ({ sampleScraper with nextStartTime := 20000000 } : scraper).nextStartTime :=
  ⟨by rfl,
   scrape_watermark_monotone sampleParse sampleMetrics 1000000000
    { sampleScraper with nextStartTime := 15000000 }
    (fun _ _ => [[sampleEvent "B" 12 "b", sampleEvent "B" 20 "bb"]])
    ([("B", [("r2", 2)])], [("B", "bb")]) { sampleScraper with nextStartTime := 20000000 }
    (by rfl) (by decide)
    (by
      intro e he _
      have h : e = sampleEvent "B" 12 "b" ∨ e = sampleEvent "B" 20 "bb" := by
        simpa [pollEvents, forIndices, sampleScraper] using he
      refine ⟨sampleEvent "B" 20 "bb", by simp [pollEvents, forIndices, sampleScraper], ?_,
        by rfl, by decide⟩
      rcases h with h | h <;> subst h <;> rfl)⟩

/-- Witness of C9: the poll with an event of an unknown stream, an event of a
disabled instance and an undecodable event returns what the poll without
them returns. -/
theorem scrape_skips_rejected_witness :
    (∀ e : FilteredLogEvent, accepted sampleParse sampleScraper e = none ↔
      findInstance sampleScraper.instances e.LogStreamName = none ∨
      ∃ inst, findInstance sampleScraper.instances e.LogStreamName = some inst ∧
        (inst.DisableEnhancedMetrics = true ∨
          ∃ err, sampleParse e.Message sampleScraper.testDisallowUnknownFields = .error err)) ∧
    (∀ (acc : Acc (String × Nat)) (e : FilteredLogEvent),
      accepted sampleParse sampleScraper e = none →
      collectEvent sampleParse sampleMetrics sampleScraper acc e = some acc) ∧
    (scrape sampleParse sampleMetrics 1000000000 sampleScraper
      (fun _ _ => [[sampleEvent "A" 10 "xx", sampleEvent "B" 12 "yyy"]])).isSome ∧
    scrape sampleParse sampleMetrics 1000000000 sampleScraper
      (fun _ _ => [[sampleEvent "Z" 9 "q", sampleEvent "A" 10 "xx", sampleEvent "C" 11 "zz"],
        [sampleEvent "B" 13 "!", sampleEvent "B" 12 "yyy"]]) =
    scrape sampleParse sampleMetrics 1000000000 sampleScraper
      (fun _ _ => [[sampleEvent "A" 10 "xx", sampleEvent "B" 12 "yyy"]]) :=
  scrape_skips_rejected sampleParse sampleMetrics 1000000000 sampleScraper
    (fun _ _ => [[sampleEvent "A" 10 "xx", sampleEvent "B" 12 "yyy"]])
    (fun _ _ => [[sampleEvent "Z" 9 "q", sampleEvent "A" 10 "xx", sampleEvent "C" 11 "zz"],
      [sampleEvent "B" 13 "!", sampleEvent "B" 12 "yyy"]])
    rfl (by rfl)


/-! ## Order independence -/

/-- C10: for a fixed clock reading, `betterTimes` applied to a Go map whose
instances are visited in another order and whose timestamp lists are permuted
returns the same selection map and the same next watermark as on the map
itself; and the final loop of `scrape`, run over the selection in any
iteration order, fills the same sample and message maps. -/
theorem betterTimes_order_independent (now : Time) (m m' : GoMap String (List Time))
    (hwf : GoMap.WF m) (hr : Reordered m m') :
    GoMap.Equiv (betterTimes now m').1 (betterTimes now m).1 ∧
    (betterTimes now m').2 = (betterTimes now m).2 ∧
    ∀ (Metric : Type) (acc : Acc Metric) (times' : GoMap String Time),
      GoMap.WF times' → GoMap.Equiv times' (betterTimes now m').1 →
      GoMap.Equiv (latestOnly acc times').1 (latestOnly acc (betterTimes now m).1).1 ∧
      GoMap.Equiv (latestOnly acc times').2 (latestOnly acc (betterTimes now m).1).2 := by
  obtain ⟨h₁, h₂⟩ := betterTimes_reordered now hwf hr
  refine ⟨h₁, h₂, ?_⟩
  intro Metric acc times' hwf' heq
  constructor
  · intro k
    rw [latestOnly_fst_get? _ _ hwf', latestOnly_fst_get? _ _ (betterTimes_WF now m), heq k, h₁ k]
  · intro k
    rw [latestOnly_snd_get? _ _ hwf', latestOnly_snd_get? _ _ (betterTimes_WF now m), heq k, h₁ k]

/-- Witness of C10: two instances visited in the other order, with the
timestamps of `A` swapped. -/
theorem betterTimes_order_independent_witness :
    GoMap.Equiv (betterTimes 100 [("B", [12]), ("A", [30, 10])]).1
      (betterTimes 100 [("A", [10, 30]), ("B", [12])]).1 ∧
    (betterTimes 100 [("B", [12]), ("A", [30, 10])]).2 =
      (betterTimes 100 [("A", [10, 30]), ("B", [12])]).2 ∧
    ∀ (Metric : Type) (acc : Acc Metric) (times' : GoMap String Time),
      GoMap.WF times' → GoMap.Equiv times' (betterTimes 100 [("B", [12]), ("A", [30, 10])]).1 →
      GoMap.Equiv (latestOnly acc times').1
        (latestOnly acc (betterTimes 100 [("A", [10, 30]), ("B", [12])]).1).1 ∧
      GoMap.Equiv (latestOnly acc times').2
        (latestOnly acc (betterTimes 100 [("A", [10, 30]), ("B", [12])]).1).2 :=
  betterTimes_order_independent 100 [("A", [10, 30]), ("B", [12])]
    [("B", [12]), ("A", [30, 10])] (by simp [GoMap.WF, GoMap.keys])
    ⟨[("B", [12]), ("A", [10, 30])], List.Perm.swap _ _ _,
      List.Forall₂.cons ⟨rfl, List.Perm.refl _⟩
        (List.Forall₂.cons ⟨rfl, List.Perm.swap _ _ _⟩ List.Forall₂.nil)⟩

/-! ## The batching loop -/

theorem forIndices_fuel (n : Nat) (fuel fuel' i : Nat) (h : n ≤ i + fuel) (h' : n ≤ i + fuel') :
    forIndices n fuel i = forIndices n fuel' i := by
  induction fuel generalizing fuel' i with
  | zero =>
    have hi : ¬ i < n := by omega
    cases fuel' with
    | zero => rfl
    | succ f' => simp [forIndices, hi]
  | succ f ih =>
    cases fuel' with
    | zero =>
      have hi : ¬ i < n := by omega
      simp [forIndices, hi]
    | succ f' =>
      simp only [forIndices]
      by_cases hi : i < n
      · simp only [hi, if_true]
        rw [ih f' (i + 100) (by omega) (by omega)]
      · simp only [hi, if_false]

theorem forIndices_length (n : Nat) (fuel i : Nat) (h : n ≤ i + fuel) :
    (forIndices n fuel i).length = (n - i + 99) / 100 := by
  induction fuel generalizing i with
  | zero =>
    simp only [forIndices, List.length_nil]
    omega
  | succ f ih =>
    simp only [forIndices]
    by_cases hi : i < n
    · simp only [hi, if_true, List.length_cons]
      rw [ih (i + 100) (by omega)]
      omega
    · simp only [hi, if_false, List.length_nil]
      omega

theorem forIndices_mem (n : Nat) (fuel i j : Nat) (hj : j ∈ forIndices n fuel i) :
    i ≤ j ∧ j < n := by
  induction fuel generalizing i with
  | zero => simp [forIndices] at hj
  | succ f ih =>
    simp only [forIndices] at hj
    by_cases hi : i < n
    · simp only [hi, if_true, List.mem_cons] at hj
      rcases hj with hj | hj
      · subst hj
        exact ⟨le_refl _, hi⟩
      · have := ih (i + 100) hj
        omega
    · simp [hi] at hj

theorem forIndices_flatten (names : List String) (fuel i : Nat)
    (h : names.length ≤ i + fuel) :
    ((forIndices names.length fuel i).map
      (fun j => (names.take (if j + 100 > names.length then names.length else j + 100)).drop
        j)).flatten = names.drop i := by
  induction fuel generalizing i with
  | zero =>
    simp only [forIndices, List.map_nil, List.flatten_nil]
    exact (List.drop_eq_nil_of_le (by omega)).symm
  | succ f ih =>
    simp only [forIndices]
    by_cases hi : i < names.length
    · simp only [hi, if_true, List.map_cons, List.flatten_cons]
      rw [ih (i + 100) (by omega)]
      by_cases hend : i + 100 > names.length
      · simp only [hend, if_true, List.take_length]
        have h0 : names.drop (i + 100) = [] := List.drop_eq_nil_of_le (by omega)
        rw [h0, List.append_nil]
      · simp only [hend, if_false]
        conv_rhs => rw [← List.take_append_drop (i + 100) names]
        rw [List.drop_append_of_le_length (by rw [List.length_take]; omega)]
    · simp only [hi, if_false, List.map_nil, List.flatten_nil]
      exact (List.drop_eq_nil_of_le (by omega)).symm

theorem newScraper_logStreamNames (now : Time) (instances : List Instance) :
    (newScraper now instances).logStreamNames = instances.map (fun i => i.ResourceID) := by
  unfold newScraper
  simp only
  have hgen : ∀ (acc : List String),
      instances.foldl (fun names inst => names ++ [inst.ResourceID]) acc =
        acc ++ instances.map (fun i => i.ResourceID) := by
    induction instances with
    | nil => intro acc; simp
    | cons a l ih => intro acc; simp [ih]
  simpa using hgen []

/-- The requests of a batching loop that runs to its end: the loop ends
within `n` iterations (more fuel changes nothing) and builds `ceil(n/100)`
requests; every request holds between 1 and 100 stream names; the stream
names of the requests, concatenated in order, are the full list of stream
names; every request carries the log group `RDSOSMetrics` and the same
`StartTime`; and `newScraper` configures one stream name per instance, its
resource identifier. -/
theorem batchInputs_partition (s : scraper) :
    (∀ fuel, s.logStreamNames.length ≤ fuel →
      forIndices s.logStreamNames.length fuel 0 =
        forIndices s.logStreamNames.length s.logStreamNames.length 0) ∧
    (batchInputs s).length = (s.logStreamNames.length + 99) / 100 ∧
    (∀ input ∈ batchInputs s,
      1 ≤ input.LogStreamNames.length ∧ input.LogStreamNames.length ≤ 100) ∧
    ((batchInputs s).map (fun input => input.LogStreamNames)).flatten = s.logStreamNames ∧
    (∀ input ∈ batchInputs s,
      input.StartTime = TimeUnixMilli s.nextStartTime ∧ input.LogGroupName = "RDSOSMetrics") ∧
    (∀ (now : Time) (instances : List Instance),
      (newScraper now instances).logStreamNames = instances.map (fun i => i.ResourceID)) := by
  refine ⟨?_, ?_, ?_, ?_, ?_, newScraper_logStreamNames⟩
  · intro fuel hfuel
    exact forIndices_fuel _ _ _ 0 (by omega) (by omega)
  · unfold batchInputs
    rw [List.length_map, forIndices_length _ _ 0 (by omega)]
    simp
  · intro input hinput
    unfold batchInputs at hinput
    obtain ⟨j, hj, rfl⟩ := List.mem_map.mp hinput
    have hjn := (forIndices_mem _ _ _ _ hj).2
    simp only [batchInput, List.length_drop, List.length_take]
    by_cases hend : j + 100 > s.logStreamNames.length
    · simp only [hend, if_true]
      omega
    · simp only [hend, if_false]
      omega
  · unfold batchInputs
    rw [List.map_map]
    have := forIndices_flatten s.logStreamNames s.logStreamNames.length 0 (by omega)
    simpa [batchInput, Function.comp] using this
  · intro input hinput
    unfold batchInputs at hinput
    obtain ⟨j, _, rfl⟩ := List.mem_map.mp hinput
    exact ⟨rfl, rfl⟩


/-! ## Instances without a timestamp after the zero time -/

theorem newestOf_eq_zeroTime {events : List Time} (h : ∀ t ∈ events, t ≤ zeroTime) :
    newestOf events = zeroTime := by
  rcases newestFrom_eq_or_mem zeroTime events with h' | h'
  · exact h'
  · exact le_antisymm (h _ h') (newestFrom_ge zeroTime events)

/-- C11: for every Go map passed to `betterTimes` in which some instance maps
to an empty timestamp list, or only to timestamps that are not after Go's
zero time, and for every clock reading that is not before the zero time, that
instance has no entry in the returned selection and the returned next
watermark is the zero time, whatever the lists of the other instances are. -/
theorem betterTimes_stale_instance (now : Time) (allTimes : GoMap String (List Time))
    (hwf : GoMap.WF allTimes) (resourceID : String) (events : List Time)
    (hmem : (resourceID, events) ∈ allTimes) (hold : ∀ t ∈ events, t ≤ zeroTime)
    (hclock : zeroTime ≤ now) :
    (betterTimes now allTimes).1.get? resourceID = none ∧
      (betterTimes now allTimes).2 = zeroTime := by
  have hnew : newestOf events = zeroTime := newestOf_eq_zeroTime hold
  constructor
  · rw [betterTimes_get? now allTimes hwf, GoMap.get?_eq_some_of_mem hwf hmem]
    simp [hnew]
  · rw [betterTimes_snd]
    apply le_antisymm
    · have hin : newestOf events ∈ allTimes.map (fun e => newestOf e.2) :=
        List.mem_map.mpr ⟨(resourceID, events), hmem, rfl⟩
      rw [← hnew]
      exact foldl_min_le_of_mem now _ hin
    · apply foldl_min_ge _ _ _ hclock
      intro x hx
      obtain ⟨e, _, rfl⟩ := List.mem_map.mp hx
      exact newestFrom_ge zeroTime e.2

/-- Witness of C11: instance `B` is in the map with an empty list next to
instance `A` with an event. -/
theorem betterTimes_stale_instance_witness :
    (betterTimes 100 [("A", [5]), ("B", [])]).1.get? "B" = none ∧
      (betterTimes 100 [("A", [5]), ("B", [])]).2 = zeroTime :=
  betterTimes_stale_instance 100 [("A", [5]), ("B", [])] (by simp [GoMap.WF, GoMap.keys])
    "B" [] (by simp) (by simp) (by decide)


/-! ## The requests a poll issues -/

theorem wrapInt64_of_range {w : Int} (h₁ : -2 ^ 63 ≤ w) (h₂ : w < 2 ^ 63) : wrapInt64 w = w := by
  unfold wrapInt64
  have h : (w + 2 ^ 63) % 2 ^ 64 = w + 2 ^ 63 :=
    Int.emod_eq_of_lt (by linarith) (by norm_num at h₂ ⊢; linarith)
  rw [h]
  ring

theorem TimeUnixMilli_of_range {w : Time} (h₁ : -2 ^ 63 ≤ w) (h₂ : w < 2 ^ 63) :
    TimeUnixMilli w = Int.tdiv w 1000000 := by
  unfold TimeUnixMilli
  rw [wrapInt64_of_range h₁ h₂]

theorem tdiv_million_bounds {w : Int} (h : 0 ≤ w) :
    Int.tdiv w 1000000 * 1000000 ≤ w ∧ w < Int.tdiv w 1000000 * 1000000 + 1000000 := by
  rw [Int.tdiv_eq_ediv h (by norm_num)]
  omega

section Requests

variable {OSMetrics Metric : Type}
variable (parseOSMetrics : String → Bool → Except String OSMetrics)
variable (makePrometheusMetrics : OSMetrics → String → List (String × String) → List Metric)

theorem collectBatchesFrom_snd (s : scraper) (source : LogSource) (idx : List Nat)
    (issued : List FilterLogEventsInput) (acc : Acc Metric) :
    (collectBatchesFrom parseOSMetrics makePrometheusMetrics s source idx issued acc).2 =
      idx.foldlM (collectBatch parseOSMetrics makePrometheusMetrics s source) acc := by
  induction idx generalizing issued acc with
  | nil => rfl
  | cons i rest ih =>
    rw [List.foldlM_cons]
    simp only [collectBatchesFrom]
    cases h : collectBatch parseOSMetrics makePrometheusMetrics s source acc i with
    | none => rfl
    | some acc' => exact ih _ _

theorem collectBatchesFrom_fst_of_some (s : scraper) (source : LogSource) (idx : List Nat)
    (issued : List FilterLogEventsInput) (acc acc' : Acc Metric)
    (h : idx.foldlM (collectBatch parseOSMetrics makePrometheusMetrics s source) acc =
      some acc') :
    (collectBatchesFrom parseOSMetrics makePrometheusMetrics s source idx issued acc).1 =
      issued ++ idx.map (batchInput s) := by
  induction idx generalizing issued acc with
  | nil => simp [collectBatchesFrom]
  | cons i rest ih =>
    rw [List.foldlM_cons] at h
    simp only [collectBatchesFrom]
    cases hc : collectBatch parseOSMetrics makePrometheusMetrics s source acc i with
    | none => simp [hc] at h
    | some acc₁ =>
      simp only [hc] at h
      rw [ih _ _ h]
      simp

theorem collectBatchesFrom_fst_leading (s : scraper) (source : LogSource) (idx : List Nat)
    (issued : List FilterLogEventsInput) (acc : Acc Metric) :
    ∃ rest, issued ++ idx.map (batchInput s) =
      (collectBatchesFrom parseOSMetrics makePrometheusMetrics s source idx issued acc).1 ++
        rest := by
  induction idx generalizing issued acc with
  | nil => exact ⟨[], by simp [collectBatchesFrom]⟩
  | cons i l ih =>
    simp only [collectBatchesFrom]
    cases hc : collectBatch parseOSMetrics makePrometheusMetrics s source acc i with
    | none => exact ⟨l.map (batchInput s), by simp⟩
    | some acc₁ =>
      obtain ⟨rest, hrest⟩ := ih (issued ++ [batchInput s i]) acc₁
      exact ⟨rest, by rw [← hrest]; simp⟩

theorem issuedRequests_leading (s : scraper) (source : LogSource) :
    ∃ rest, batchInputs s =
      issuedRequests parseOSMetrics makePrometheusMetrics s source ++ rest := by
  obtain ⟨rest, h⟩ := collectBatchesFrom_fst_leading parseOSMetrics makePrometheusMetrics s
    source (forIndices s.logStreamNames.length s.logStreamNames.length 0) []
    { allMetrics := [], allMessages := [] }
  exact ⟨rest, by simpa [batchInputs, issuedRequests] using h⟩

theorem issuedRequests_of_returns (now : Time) (s : scraper) (source : LogSource)
    (h : (scrape parseOSMetrics makePrometheusMetrics now s source).isSome) :
    issuedRequests parseOSMetrics makePrometheusMetrics s source = batchInputs s := by
  unfold scrape at h
  cases hc : collectBatches parseOSMetrics makePrometheusMetrics s source with
  | none => simp [hc] at h
  | some acc =>
    unfold collectBatches at hc
    have := collectBatchesFrom_fst_of_some parseOSMetrics makePrometheusMetrics s source _ []
      _ acc hc
    simpa [batchInputs, issuedRequests] using this

end Requests


section RequestClaims

variable {OSMetrics Metric : Type}
variable (parseOSMetrics : String → Bool → Except String OSMetrics)
variable (makePrometheusMetrics : OSMetrics → String → List (String × String) → List Metric)

/-- C8, amended: for every scraper with `n` log stream names whose watermark
`nextStartTime` is representable in `int64` nanoseconds, the loop that records
the issued requests computes what the batching loop of `scrape` computes and
ends within `n` iterations; the requests issued by a poll are a leading part
of the requests of the full loop; a poll that returns (as every poll does
with strict validation off) has issued exactly `ceil(n/100)` requests whose
stream names, concatenated in issue order, are the full list of stream names;
and every issued request holds between 1 and 100 stream names, names the log
group `RDSOSMetrics`, and carries as `StartTime` the watermark held on entry
to the poll truncated to whole milliseconds, which for a watermark not before
the Unix epoch is at most the watermark and less than one millisecond before
it. -/
theorem batching_requests (now : Time) (s : scraper) (source : LogSource)
    (hrange : -2 ^ 63 ≤ s.nextStartTime ∧ s.nextStartTime < 2 ^ 63) :
    (collectBatchesFrom parseOSMetrics makePrometheusMetrics s source
        (forIndices s.logStreamNames.length s.logStreamNames.length 0) []
        { allMetrics := [], allMessages := [] }).2 =
      collectBatches parseOSMetrics makePrometheusMetrics s source ∧
    (∀ fuel, s.logStreamNames.length ≤ fuel →
      forIndices s.logStreamNames.length fuel 0 =
        forIndices s.logStreamNames.length s.logStreamNames.length 0) ∧
    (∃ rest, batchInputs s =
      issuedRequests parseOSMetrics makePrometheusMetrics s source ++ rest) ∧
    ((scrape parseOSMetrics makePrometheusMetrics now s source).isSome →
      (issuedRequests parseOSMetrics makePrometheusMetrics s source).length =
        (s.logStreamNames.length + 99) / 100 ∧
      ((issuedRequests parseOSMetrics makePrometheusMetrics s source).map
        (fun input => input.LogStreamNames)).flatten = s.logStreamNames) ∧
    (s.testDisallowUnknownFields = false →
      (scrape parseOSMetrics makePrometheusMetrics now s source).isSome) ∧
    (∀ input ∈ issuedRequests parseOSMetrics makePrometheusMetrics s source,
      1 ≤ input.LogStreamNames.length ∧ input.LogStreamNames.length ≤ 100 ∧
      input.LogGroupName = "RDSOSMetrics" ∧
      input.StartTime = Int.tdiv s.nextStartTime 1000000 ∧
      (0 ≤ s.nextStartTime →
        input.StartTime * 1000000 ≤ s.nextStartTime ∧
        s.nextStartTime < input.StartTime * 1000000 + 1000000)) := by
  obtain ⟨hfuel, hlen, hsize, hflat, hstart, _⟩ := batchInputs_partition s
  refine ⟨collectBatchesFrom_snd parseOSMetrics makePrometheusMetrics s source _ _ _, hfuel,
    issuedRequests_leading parseOSMetrics makePrometheusMetrics s source, ?_, ?_, ?_⟩
  · intro hret
    rw [issuedRequests_of_returns parseOSMetrics makePrometheusMetrics now s source hret]
    exact ⟨hlen, hflat⟩
  · intro hstrict
    rw [scrape_of_strict_off parseOSMetrics makePrometheusMetrics now s source hstrict]
    rfl
  · intro input hinput
    obtain ⟨rest, hrest⟩ := issuedRequests_leading parseOSMetrics makePrometheusMetrics s source
    have hmem : input ∈ batchInputs s := by
      rw [hrest]
      exact List.mem_append_left _ hinput
    have hst : input.StartTime = Int.tdiv s.nextStartTime 1000000 := by
      rw [(hstart input hmem).1]
      exact TimeUnixMilli_of_range hrange.1 hrange.2
    refine ⟨(hsize input hmem).1, (hsize input hmem).2, (hstart input hmem).2, hst, ?_⟩
    intro hpos
    rw [hst]
    exact tdiv_million_bounds hpos

end RequestClaims

/-- Counterexample to C8 as stated: with 101 stream names `ceil(n/100)` is 2,
but with strict validation on the callback panics on the undecodable event of
the first batch, so only one request is issued; and that request's
`StartTime`, 15 ms, is not the watermark held on entry, 15 ms and 500 ns. -/
theorem batching_stops_at_panic :
    (sampleLargeScraper.logStreamNames.length + 99) / 100 = 2 ∧
    (issuedRequests sampleParse sampleMetrics sampleLargeScraper samplePanicSource).length = 1 ∧
    scrape sampleParse sampleMetrics 1000000000 sampleLargeScraper samplePanicSource = none ∧
    ∀ input ∈ issuedRequests sampleParse sampleMetrics sampleLargeScraper samplePanicSource,
      input.StartTime = 15 ∧
      MillisecondsTimeValue (some input.StartTime) ≠ sampleLargeScraper.nextStartTime := by
  have hissued : issuedRequests sampleParse sampleMetrics sampleLargeScraper samplePanicSource =
      [batchInput sampleLargeScraper 0] := by rfl
  refine ⟨by decide, by rw [hissued]; rfl, by rfl, ?_⟩
  intro input hinput
  rw [hissued, List.mem_singleton] at hinput
  subst hinput
  exact ⟨by decide, by decide⟩

/-- Witness of the amended C8: a poll of three stream names with the
watermark at 10 ms. -/
theorem batching_requests_witness :
    ((-2 : Int) ^ 63 ≤ sampleScraper.nextStartTime ∧ sampleScraper.nextStartTime < 2 ^ 63) ∧
    (issuedRequests sampleParse sampleMetrics sampleScraper
      (fun _ _ => [[sampleEvent "A" 10 "xx", sampleEvent "B" 12 "yyy"]])).length =
        (sampleScraper.logStreamNames.length + 99) / 100 ∧
    ((issuedRequests sampleParse sampleMetrics sampleScraper
      (fun _ _ => [[sampleEvent "A" 10 "xx", sampleEvent "B" 12 "yyy"]])).map
        (fun input => input.LogStreamNames)).flatten = sampleScraper.logStreamNames ∧
    ∀ input ∈ issuedRequests sampleParse sampleMetrics sampleScraper
        (fun _ _ => [[sampleEvent "A" 10 "xx", sampleEvent "B" 12 "yyy"]]),
      1 ≤ input.LogStreamNames.length ∧ input.LogStreamNames.length ≤ 100 ∧
      input.LogGroupName = "RDSOSMetrics" ∧
      input.StartTime = Int.tdiv sampleScraper.nextStartTime 1000000 ∧
      (0 ≤ sampleScraper.nextStartTime →
        input.StartTime * 1000000 ≤ sampleScraper.nextStartTime ∧
        sampleScraper.nextStartTime < input.StartTime * 1000000 + 1000000) :=
  ⟨by decide,
   ((batching_requests sampleParse sampleMetrics 1000000000 sampleScraper
      (fun _ _ => [[sampleEvent "A" 10 "xx", sampleEvent "B" 12 "yyy"]])
      (by decide)).2.2.2.1 (by rfl)).1,
   ((batching_requests sampleParse sampleMetrics 1000000000 sampleScraper
      (fun _ _ => [[sampleEvent "A" 10 "xx", sampleEvent "B" 12 "yyy"]])
      (by decide)).2.2.2.1 (by rfl)).2,
   (batching_requests sampleParse sampleMetrics 1000000000 sampleScraper
      (fun _ _ => [[sampleEvent "A" 10 "xx", sampleEvent "B" 12 "yyy"]])
      (by decide)).2.2.2.2.2⟩

end Enhanced
